import Mathlib

/-! goautoneg: parsing and ranking of HTTP Accept headers.

A shallow embedding of `accept.go` (`ParseAccept`, `trim`, the `Accept` record) together
with models of the Go library functions it calls (`strings.Split`, `strings.SplitN`,
`strings.Trim`, `strconv.ParseFloat`, `sort.SliceStable`), followed by the properties
proved about them.

Conventions of the embedding:

* a Go string is the list of its characters; every separator the program uses is ASCII,
  so splitting by character and splitting by byte agree;
* a `float64` is its IEEE 754 binary64 fields (sign, biased exponent, fraction);
* a `map[string]string` is an association list with unique keys;
* a run-time panic (index out of range) is the value `none`.
-/

namespace goautoneg

/-- A Go string, as the list of its characters. -/
abbrev GoString := List Char

/-! ## package strings -/

namespace strings

/-- The function `strings.Split(s, sep)` for a one-character separator: the pieces of `s`
between the occurrences of `sep`; there is always at least one piece. -/
def Split : GoString → Char → List GoString
  | [], _ => [[]]
  | c :: cs, sep =>
    if c = sep then [] :: Split cs sep
    else
      match Split cs sep with
      | [] => [[c]]
      | p :: ps => (c :: p) :: ps

/-- The function `strings.SplitN(s, sep, n)` for a one-character separator and `n ≥ 0`:
at most `n` pieces, the last one being the unsplit remainder; `n = 0` gives no piece. -/
def SplitN : GoString → Char → Nat → List GoString
  | _, _, 0 => []
  | s, _, 1 => [s]
  | [], _, _ + 2 => [[]]
  | c :: cs, sep, n + 2 =>
    if c = sep then [] :: SplitN cs sep (n + 1)
    else
      match SplitN cs sep (n + 2) with
      | [] => [[c]]
      | p :: ps => (c :: p) :: ps

/-- The function `strings.Trim(s, cutset)` for a one-character cutset: `s` without its
leading and trailing occurrences of `c`. -/
def Trim (s : GoString) (c : Char) : GoString :=
  ((s.dropWhile (fun x => x == c)).reverse.dropWhile (fun x => x == c)).reverse

end strings

/-! ## float64 -/

/-- An IEEE 754 binary64 value by its fields: sign bit, 11-bit biased exponent and
52-bit fraction. -/
structure Float64 where
  sign : Bool
  exp : Nat
  frac : Nat
deriving DecidableEq, Repr

namespace Float64

/-- The constant `1.0`. -/
def one : Float64 := ⟨false, 1023, 0⟩

/-- The constant `0.0` (positive zero). -/
def zero : Float64 := ⟨false, 0, 0⟩

/-- Not-a-number. -/
def nan : Float64 := ⟨false, 2047, 2 ^ 51⟩

/-- Infinity of the given sign, `math.Inf(sign)`. -/
def inf (neg : Bool) : Float64 := ⟨neg, 2047, 0⟩

/-- Whether the value is a NaN: exponent all ones and a non-zero fraction. -/
def isNaN (x : Float64) : Bool := x.exp == 2047 && x.frac != 0

/-- The position of a non-NaN value on the number line: the sign-magnitude integer
read from its bits. Both zeros are at `0`, the infinities are at the two ends. -/
def key (x : Float64) : Int :=
  if x.sign then -((x.exp * 2 ^ 52 + x.frac : Nat) : Int) else ((x.exp * 2 ^ 52 + x.frac : Nat) : Int)

/-- Go's `x > y` on float64: false as soon as one side is NaN. -/
def gt (x y : Float64) : Bool := !x.isNaN && !y.isNaN && decide (y.key < x.key)

/-- Go's `x >= y` on float64: false as soon as one side is NaN. -/
def ge (x y : Float64) : Bool := !x.isNaN && !y.isNaN && decide (y.key ≤ x.key)

/-- Go's `x == y` on float64: false as soon as one side is NaN, and `0 == -0`. -/
def eq (x y : Float64) : Bool := !x.isNaN && !y.isNaN && decide (x.key = y.key)

/-- Whether `n / d ≥ 2 ^ e`, by cross-multiplication. -/
def geTwoPow (n d : Nat) (e : Int) : Bool :=
  match e with
  | Int.ofNat k => decide (d * 2 ^ k ≤ n)
  | Int.negSucc k => decide (d ≤ n * 2 ^ (k + 1))

/-- Bisection for the binary exponent: the largest `e` in `[lo, hi)` with
`n / d ≥ 2 ^ e`, or `lo` when there is none. -/
def searchExp (n d : Nat) : Nat → Int → Int → Int
  | 0, lo, _ => lo
  | fuel + 1, lo, hi =>
    if hi - lo ≤ 1 then lo
    else
      let mid := (lo + hi) / 2
      if geTwoPow n d mid then searchExp n d fuel mid hi else searchExp n d fuel lo mid

/-- The binary64 nearest to the exact ratio `n / d` (ties to even), with the given sign,
and whether the ratio is out of range (then the value is an infinity). -/
def round (neg : Bool) (n d : Nat) : Float64 × Bool :=
  let e := searchExp n d 12 (-1022) 1025
  let qe := e - 52
  let num := if 0 ≤ qe then n else n * 2 ^ (-qe).toNat
  let den := if 0 ≤ qe then d * 2 ^ qe.toNat else d
  let q := num / den
  let r := num % den
  let q1 := if den < 2 * r ∨ (2 * r = den ∧ q % 2 = 1) then q + 1 else q
  if q1 < 2 ^ 52 then (⟨neg, 0, q1⟩, false)
  else
    let q2 := if q1 = 2 ^ 53 then 2 ^ 52 else q1
    let qe2 := if q1 = 2 ^ 53 then qe + 1 else qe
    let biased := (qe2 + 1075).toNat
    if 2047 ≤ biased then (inf neg, true) else (⟨neg, biased, q2 - 2 ^ 52⟩, false)

end Float64

/-! ## package strconv -/

namespace strconv

/-- The two errors of `strconv.ParseFloat`. -/
inductive NumError where
  | ErrSyntax
  | ErrRange
deriving DecidableEq, Repr

/-- Go's `lower(c)`: the byte `c | 0x20`, as a number. -/
def lower (c : Char) : Nat := c.toNat ||| 32

/-- Whether `c` is a decimal digit. -/
def isDigit (c : Char) : Bool := decide (48 ≤ c.toNat) && decide (c.toNat ≤ 57)

/-- Whether `c` is one of the hexadecimal letters `a`..`f`, `A`..`F`. -/
def isHexLetter (c : Char) : Bool := decide (97 ≤ lower c) && decide (lower c ≤ 102)

/-- Go's `commonPrefixLenIgnoreCase(s, pat)`: the length of the longest common start of
`s` and the lower-case pattern `pat`, the letters `A`..`Z` of `s` read as lower case. -/
def commonPrefixLenIgnoreCase : GoString → GoString → Nat
  | c :: s, p :: pat =>
    let c1 := if 65 ≤ c.toNat ∧ c.toNat ≤ 90 then c.toNat + 32 else c.toNat
    if c1 = p.toNat then commonPrefixLenIgnoreCase s pat + 1 else 0
  | _, _ => 0

/-- The infinity branch of Go's `special`: `s` is the text after the optional sign. -/
def specialInf (neg : Bool) (nsign : Nat) (s : GoString) : Option (Float64 × Nat) :=
  let n := commonPrefixLenIgnoreCase s ['i', 'n', 'f', 'i', 'n', 'i', 't', 'y']
  let n := if 3 < n ∧ n < 8 then 3 else n
  if n = 3 ∨ n = 8 then some (Float64.inf neg, nsign + n) else none

/-- Go's `special(s)`: the value and the number of bytes read when `s` starts with an
infinity (optionally signed) or a NaN, in any case of letters. -/
def special : GoString → Option (Float64 × Nat)
  | [] => none
  | c :: s =>
    if c = '+' then specialInf false 1 s
    else if c = '-' then specialInf true 1 s
    else if c = 'i' ∨ c = 'I' then specialInf false 0 (c :: s)
    else if c = 'n' ∨ c = 'N' then
      if commonPrefixLenIgnoreCase (c :: s) ['n', 'a', 'n'] = 3 then some (Float64.nan, 3) else none
    else none

/-- The state of the digit loop of Go's `readFloat`. The mantissa is kept exact: the
library cuts it at 19 digits and falls back to an exact decimal when digits were cut,
which gives the same correctly rounded result. -/
structure Digits where
  sawdot : Bool
  sawdigits : Bool
  nd : Nat
  dp : Int
  mantissa : Nat
  underscores : Bool
deriving DecidableEq, Repr

/-- The digit loop of `readFloat`: reads digits, underscores and at most one dot, and
returns the state together with the unread rest. -/
def readDigits (hex : Bool) : GoString → Digits → Digits × GoString
  | [], st => (st, [])
  | c :: s, st =>
    if c = '_' then readDigits hex s { st with underscores := true }
    else if c = '.' then
      if st.sawdot then (st, c :: s)
      else readDigits hex s { st with sawdot := true, dp := st.nd }
    else if isDigit c then
      if c = '0' ∧ st.nd = 0 then readDigits hex s { st with sawdigits := true, dp := st.dp - 1 }
      else
        readDigits hex s { st with
          sawdigits := true, nd := st.nd + 1,
          mantissa := st.mantissa * (if hex then 16 else 10) + (c.toNat - 48) }
    else if hex ∧ isHexLetter c then
      readDigits hex s { st with
        sawdigits := true, nd := st.nd + 1, mantissa := st.mantissa * 16 + (lower c - 97 + 10) }
    else (st, c :: s)

/-- The exponent digits of `readFloat`: digits and underscores, the value no longer
growing once it has reached 10000. Returns the value, whether an underscore was seen,
and the unread rest. -/
def readExpDigits : GoString → Nat → Bool → Nat × Bool × GoString
  | [], e, u => (e, u, [])
  | c :: s, e, u =>
    if c = '_' then readExpDigits s e true
    else if isDigit c then readExpDigits s (if e < 10000 then e * 10 + (c.toNat - 48) else e) u
    else (e, u, c :: s)

/-- Go's `underscoreOK`, the scan after the optional sign and base: `saw` is the kind of
the last character (`0` digit, `_` underscore, `!` other, `^` start). -/
def underscoreScan (hex : Bool) : GoString → Char → Bool
  | [], saw => saw != '_'
  | c :: s, saw =>
    if isDigit c ∨ (hex ∧ isHexLetter c) then underscoreScan hex s '0'
    else if c = '_' then
      if saw != '0' then false else underscoreScan hex s '_'
    else if saw = '_' then false
    else underscoreScan hex s '!'

/-- Go's `underscoreOK(s)`: underscores only between digits, or between a base mark and
a digit. -/
def underscoreOK (s : GoString) : Bool :=
  let s := match s with
    | c :: t => if c = '-' ∨ c = '+' then t else s
    | [] => s
  match s with
  | c0 :: c1 :: t =>
    if c0 = '0' ∧ (lower c1 = 98 ∨ lower c1 = 111 ∨ lower c1 = 120) then
      underscoreScan (lower c1 = 120) t '0'
    else underscoreScan false s '^'
  | _ => underscoreScan false s '^'

/-- The result of `readFloat`: sign, exact mantissa, exponent of the base (10, or 2 for a
hexadecimal literal), and the unread rest. -/
structure ReadFloat where
  neg : Bool
  mantissa : Nat
  exp : Int
  hex : Bool
  rest : GoString
deriving DecidableEq, Repr

/-- Go's `readFloat(s)`: `none` when `s` does not start with a well-formed literal. -/
def readFloat (s0 : GoString) : Option ReadFloat :=
  match s0 with
  | [] => none
  | c :: t =>
    let neg := decide (c = '-')
    let s := if c = '+' ∨ c = '-' then t else s0
    let hex := match s with
      | c0 :: c1 :: _ :: _ => decide (c0 = '0') && decide (lower c1 = 120)
      | _ => false
    let s := if hex then s.drop 2 else s
    let (st, s) := readDigits hex s ⟨false, false, 0, 0, 0, false⟩
    if !st.sawdigits then none
    else
      let dp : Int := if st.sawdot then st.dp else st.nd
      let dp := if hex then dp * 4 else dp
      let ndMant : Int := if hex then st.nd * 4 else st.nd
      let finish (dp : Int) (u : Bool) (rest : GoString) : Option ReadFloat :=
        if u ∧ !underscoreOK (s0.take (s0.length - rest.length)) then none
        else some ⟨neg, st.mantissa, if st.mantissa ≠ 0 then dp - ndMant else 0, hex, rest⟩
      match s with
      | c :: s1 =>
        if lower c = (if hex then 112 else 101) then
          match s1 with
          | [] => none
          | c2 :: s2 =>
            let esign : Int := if c2 = '-' then -1 else 1
            let s3 := if c2 = '+' ∨ c2 = '-' then s2 else s1
            match s3 with
            | [] => none
            | c3 :: _ =>
              if !isDigit c3 then none
              else
                let (e, u, rest) := readExpDigits s3 0 st.underscores
                finish (dp + e * esign) u rest
        else if hex then none
        else finish dp st.underscores s
      | [] => if hex then none else finish dp st.underscores s

/-- The function `strconv.ParseFloat(s, 64)`: the binary64 nearest to the literal `s`
and no error; `0` and `ErrSyntax` when `s` is not a literal; an infinity and `ErrRange`
when the literal is out of range. -/
def ParseFloat (s : GoString) : Float64 × Option NumError :=
  match special s with
  | some (v, n) => if n = s.length then (v, none) else (Float64.zero, some NumError.ErrSyntax)
  | none =>
    match readFloat s with
    | none => (Float64.zero, some NumError.ErrSyntax)
    | some r =>
      if r.rest ≠ [] then (Float64.zero, some NumError.ErrSyntax)
      else
        let base : Nat := if r.hex then 2 else 10
        let (f, ovf) :=
          if 0 ≤ r.exp then Float64.round r.neg (r.mantissa * base ^ r.exp.toNat) 1
          else Float64.round r.neg r.mantissa (base ^ (-r.exp).toNat)
        (f, if ovf then some NumError.ErrRange else none)

end strconv

/-! ## package sort -/

namespace sort

/-- The inner loop of Go's `insertionSort`: the element `x` moves left past each neighbour
it is less than. `left` is the part before `x`, nearest neighbour first; the result is in
the same reversed order. -/
def insertLeft {α : Type} (less : α → α → Bool) (x : α) : List α → List α
  | [] => [x]
  | y :: left => if less x y then y :: insertLeft less x left else x :: y :: left

/-- The outer loop of Go's `insertionSort`: `done` is the part already processed, in
reversed order, `todo` the elements still to insert. -/
def insertionLoop {α : Type} (less : α → α → Bool) : List α → List α → List α
  | done, [] => done.reverse
  | done, x :: todo => insertionLoop less (insertLeft less x done) todo

/-- Go's `insertionSort(data, a, b)`: sorts `data[a:b]` by insertion, the rest of `data`
untouched. -/
def insertionSort {α : Type} (less : α → α → Bool) (data : List α) (a b : Nat) : List α :=
  data.take a ++ insertionLoop less [] ((data.drop a).take (b - a)) ++ data.drop b

/-- Go's `rotate(data, a, m, b)`: the two consecutive blocks `u = data[a:m]` and
`v = data[m:b]` change places, `x u v y` becoming `x v u y`. -/
def rotate {α : Type} (data : List α) (a m b : Nat) : List α :=
  data.take a ++ (data.drop m).take (b - m) ++ (data.drop a).take (m - a) ++ data.drop b

/-- The comparison `data.Less(i, j)` of the elements at two indices. -/
def lessAt {α : Type} (less : α → α → Bool) (data : List α) (i j : Nat) : Bool :=
  match data[i]?, data[j]? with
  | some x, some y => less x y
  | _, _ => false

/-- The binary search loops of Go's `symMerge`:
`for i < j { h := (i+j)/2; if p(h) { i = h + 1 } else { j = h } }`, returning `i`. -/
def searchLoop (p : Nat → Bool) : Nat → Nat → Nat → Nat
  | 0, i, _ => i
  | fuel + 1, i, j =>
    if i < j then
      let h := (i + j) / 2
      if p h then searchLoop p fuel (h + 1) j else searchLoop p fuel i h
    else i

/-- Go's `symMerge(data, a, m, b)`: merges the two sorted blocks `data[a:m]` and
`data[m:b]` in place. `fuel` bounds the depth of the recursion; `b - a` is enough. -/
def symMerge {α : Type} (less : α → α → Bool) : Nat → List α → Nat → Nat → Nat → List α
  | 0, data, _, _, _ => data
  | fuel + 1, data, a, m, b =>
    if m - a = 1 then
      -- direct insertion of data[a] into data[m:b]
      let i := searchLoop (fun h => lessAt less data h a) (b - m) m b
      rotate data a m i
    else if b - m = 1 then
      -- direct insertion of data[m] into data[a:m]
      let i := searchLoop (fun h => !lessAt less data m h) (m - a) a m
      rotate data i m b
    else
      let mid := (a + b) / 2
      let n := mid + m
      let start0 := if m > mid then n - b else a
      let r := if m > mid then mid else m
      let p := n - 1
      let start := searchLoop (fun c => !lessAt less data (p - c) c) (r - start0) start0 r
      let stop := n - start
      let data1 := if start < m ∧ m < stop then rotate data start m stop else data
      let data2 := if a < start ∧ start < mid then symMerge less fuel data1 a start mid else data1
      if mid < stop ∧ stop < b then symMerge less fuel data2 mid stop b else data2

/-- The first loop of Go's `stable`: insertion sort of each block of `blockSize`
elements, `for b <= n { insertionSort(data, a, b); a = b; b += blockSize }`, and then of
the remainder `data[a:n]`. -/
def blockLoop {α : Type} (less : α → α → Bool) (blockSize n : Nat) :
    Nat → List α → Nat → Nat → List α
  | 0, data, _, _ => data
  | fuel + 1, data, a, b =>
    if b ≤ n then blockLoop less blockSize n fuel (insertionSort less data a b) b (b + blockSize)
    else insertionSort less data a n

/-- One merging pass of Go's `stable`:
`for b <= n { symMerge(data, a, a+blockSize, b); a = b; b += 2*blockSize }` and then
`if m := a + blockSize; m < n { symMerge(data, a, m, n) }`. -/
def mergePass {α : Type} (less : α → α → Bool) (blockSize n : Nat) :
    Nat → List α → Nat → Nat → List α
  | 0, data, _, _ => data
  | fuel + 1, data, a, b =>
    if b ≤ n then
      mergePass less blockSize n fuel (symMerge less (b - a) data a (a + blockSize) b) b
        (b + 2 * blockSize)
    else if a + blockSize < n then symMerge less (n - a) data a (a + blockSize) n
    else data

/-- The second loop of Go's `stable`:
`for blockSize < n { (one merging pass); blockSize *= 2 }`. -/
def mergeLoop {α : Type} (less : α → α → Bool) (n : Nat) : Nat → List α → Nat → List α
  | 0, data, _ => data
  | fuel + 1, data, blockSize =>
    if blockSize < n then
      mergeLoop less n fuel (mergePass less blockSize n (n + 1) data 0 (2 * blockSize))
        (2 * blockSize)
    else data

/-- Go's `stable(data, n)`: insertion sort on blocks of 20 elements, then repeated
merging of neighbouring blocks with `symMerge`. -/
def stable {α : Type} (less : α → α → Bool) (data : List α) : List α :=
  let n := data.length
  mergeLoop less n (n + 1) (blockLoop less 20 n (n + 1) data 0 20) 20

/-- The function `sort.SliceStable(x, less)`, with `less` given on the elements. -/
def SliceStable {α : Type} (x : List α) (less : α → α → Bool) : List α :=
  stable less x

end sort

/-! ## accept.go -/

/-- A `map[string]string`: an association list with unique keys. -/
abbrev StringMap := List (GoString × GoString)

/-- The assignment `m[k] = v`. -/
def StringMap.set : StringMap → GoString → GoString → StringMap
  | [], k, v => [(k, v)]
  | (k1, v1) :: m, k, v => if k1 = k then (k1, v) :: m else (k1, v1) :: StringMap.set m k v

/-- The lookup `m[k]`, `none` when the key is absent. -/
def StringMap.get (m : StringMap) (k : GoString) : Option GoString :=
  List.lookup k m

/-- Accept is a structure to represent a clause in an HTTP Accept Header. The field
`Type_` is the field `Type` of the source. -/
structure Accept where
  Type_ : GoString
  SubType : GoString
  Q : Float64
  Params : StringMap
deriving DecidableEq, Repr

/-- The function `trim`: `strings.Trim(s, " ")`. -/
def trim (s : GoString) : GoString := strings.Trim s ' '

/-- One turn of the loop over `mediaRangeParts[1:]`: a parameter without `=` is skipped,
the parameter `q` sets `Q` (the error of `ParseFloat` is discarded), any other one is
stored in `Params`. -/
def parseParam (accept : Accept) (param : GoString) : Accept :=
  match strings.SplitN param '=' 2 with
  | [k, v] =>
    let key := trim k
    if key = ['q'] then { accept with Q := (strconv.ParseFloat v).1 }
    else { accept with Params := accept.Params.set key (trim v) }
  | _ => accept

/-- The switch on the type part of the media range: a bare `*`, or two pieces around one
`/`; `none` is the `default: continue`. -/
def parseTypes (accept : Accept) (types : List GoString) : Option Accept :=
  match types with
  | [t] => if t = ['*'] then some { accept with Type_ := ['*'], SubType := ['*'] } else none
  | [t, s] => some { accept with Type_ := trim t, SubType := trim s }
  | _ => none

/-- One turn of the loop over `parts`. The outer `none` is a panic (index out of range
on `mediaRangeParts`), `some none` is a `continue` without a clause, `some (some a)` is
the clause appended to `clauses`. -/
def parsePart (part0 : GoString) : Option (Option Accept) :=
  let part := trim part0
  let mediaRangeParts := strings.Split part ';'
  let accept : Accept := { Type_ := [], SubType := [], Q := Float64.one, Params := [] }
  match mediaRangeParts with
  | [] => none
  | mediaRange :: params =>
    match parseTypes accept (strings.Split mediaRange '/') with
    | none => some none
    | some accept => some (some (params.foldl parseParam accept))

/-- The loop `for _, part := range parts` of `ParseAccept`, from the clauses collected so
far. -/
def parseParts : List GoString → List Accept → Option (List Accept)
  | [], clauses => some clauses
  | part :: parts, clauses =>
    match parsePart part with
    | none => none
    | some none => parseParts parts clauses
    | some (some accept) => parseParts parts (clauses ++ [accept])

/-- The comparison handed to `sort.SliceStable`: `clauses[i].Q > clauses[j].Q`. -/
def lessQ (x y : Accept) : Bool := Float64.gt x.Q y.Q

/-- ParseAccept parses the given string as an Accept header. The result is `none` when
the Go function panics. -/
def ParseAccept (header : GoString) : Option (List Accept) :=
  match parseParts (strings.Split header ',') [] with
  | none => none
  | some clauses => some (sort.SliceStable clauses lessQ)

/-! ## Vocabulary of the properties -/

/-- The clause that one comma-separated segment contributes, `none` when the segment is
dropped. -/
def segmentClause (part : GoString) : Option Accept :=
  match parsePart part with
  | some (some accept) => some accept
  | _ => none

/-- The clause list before the sort: the clauses of the segments, in input order. -/
def clausesOf (header : GoString) : List Accept :=
  (strings.Split header ',').filterMap segmentClause

/-- The media-range part of a segment: the text before the first `;` of the
space-trimmed segment. -/
def mediaRangeOf (seg : GoString) : GoString :=
  (trim seg).takeWhile (fun c => c != ';')

/-- The parameter parts of a segment: the pieces after the first `;` of the
space-trimmed segment, cut at each `;`. -/
def paramsOf (seg : GoString) : List GoString :=
  (strings.Split (trim seg) ';').tail

/-- The key of a parameter part: the space-trimmed text before its first `=`. -/
def paramKey (param : GoString) : GoString :=
  trim (param.takeWhile (fun c => c != '='))

/-- The value of a parameter part: the text after its first `=`, as written. -/
def paramValue (param : GoString) : GoString :=
  (param.dropWhile (fun c => c != '=')).tail

/-- A well-shaped media range: exactly `*`, or exactly one `/`. -/
def validMediaRange (seg : GoString) : Bool :=
  mediaRangeOf seg == ['*'] || (mediaRangeOf seg).count '/' == 1

/-- The header of the counterexample to C2: twenty-one clauses, the seventh with
`q=NaN`, the eighth (`x/a`) and the last (`x/b`) with the default `Q = 1.0`. -/
def tieHeader : GoString :=
  ("a/b;q=0.9,a/b;q=0.9,a/b;q=0.9,a/b;q=0.9,a/b;q=0.9,a/b;q=0.5,a/b;q=NaN,x/a," ++
   "a/b;q=0.4,a/b;q=0.4,a/b;q=0.4,a/b;q=0.4,a/b;q=0.4,a/b;q=0.4,a/b;q=0.4,a/b;q=0.4," ++
   "a/b;q=0.4,a/b;q=0.4,a/b;q=0.4,a/b;q=0.4,x/b").toList

/-! ## Vocabulary of the sorting proofs -/

namespace sort

/-- The list is in non-increasing order of the key `k`. -/
def Desc {α : Type} (k : α → Int) (l : List α) : Prop :=
  l.Pairwise (fun x y => k y ≤ k x)

/-- The elements of the list whose key is `q`, in order. -/
def keyFilter {α : Type} (k : α → Int) (q : Int) (l : List α) : List α :=
  l.filter (fun x => decide (k x = q))

/-- On the elements of the list, `less x y` says that the key of `x` is the greater. -/
def Agree {α : Type} (less : α → α → Bool) (k : α → Int) (l : List α) : Prop :=
  ∀ x ∈ l, ∀ y ∈ l, less x y = decide (k y < k x)

/-- The list `M` is the stable merge of `L` and `R`: a rearrangement of `L ++ R` in
non-increasing key order in which, for each key, the elements of `L` come first and
both groups keep their order. -/
def Merged {α : Type} (k : α → Int) (L R M : List α) : Prop :=
  M.Perm (L ++ R) ∧ Desc k M ∧ ∀ q, keyFilter k q M = keyFilter k q L ++ keyFilter k q R

/-- The list `cur` is the stable sort of `orig`: a rearrangement in non-increasing key
order in which the elements of each key keep their order. -/
def StableSorted {α : Type} (k : α → Int) (orig cur : List α) : Prop :=
  cur.Perm orig ∧ Desc k cur ∧ ∀ q, keyFilter k q cur = keyFilter k q orig

/-- The list `cur` is `orig` with each block of `blockSize` elements (the last one
possibly shorter) replaced by its stable sort. -/
inductive Blocked {α : Type} (k : α → Int) (blockSize : Nat) : List α → List α → Prop where
  | last (orig cur : List α) :
      orig.length ≤ blockSize → StableSorted k orig cur → Blocked k blockSize orig cur
  | cons (o1 c1 orig cur : List α) :
      o1.length = blockSize → StableSorted k o1 c1 → Blocked k blockSize orig cur →
      Blocked k blockSize (o1 ++ orig) (c1 ++ cur)

end sort

end goautoneg

namespace goautoneg

namespace sort

/-- The state of Go's `insertionSort` after the elements of `todo` have been inserted, one
after the other, into the processed part `done` (kept in reversed order). -/
def insertAll {α : Type} (less : α → α → Bool) (done todo : List α) : List α :=
  todo.foldl (fun d x => insertLeft less x d) done

end sort

end goautoneg
namespace goautoneg

/-- The stable descending-by-`Q` sort of the concatenation of two results: the list that
`ParseAccept` is said to return for two headers joined by a comma. -/
def sortJoined (ra rb : Option (List Accept)) : Option (List Accept) :=
  match ra, rb with
  | some x, some y => some (sort.SliceStable (x ++ y) lessQ)
  | _, _ => none

/-- The clauses obtained by parsing each comma-separated segment of the header alone, in
input order. -/
def perSegment (header : GoString) : List Accept :=
  ((strings.Split header ',').map (fun seg => (ParseAccept seg).getD [])).flatten

/-- The second header of the counterexample to C17: twelve clauses with `q=0.5`, one with
`q=NaN`, six with `q=0.5` and one with `q=0.9`. -/
def mergeTail : GoString :=
  ("c/d;q=0.5,c/d;q=0.5,c/d;q=0.5,c/d;q=0.5,c/d;q=0.5,c/d;q=0.5,c/d;q=0.5,c/d;q=0.5," ++
   "c/d;q=0.5,c/d;q=0.5,c/d;q=0.5,c/d;q=0.5,n/n;q=NaN,c/d;q=0.5,c/d;q=0.5,c/d;q=0.5," ++
   "c/d;q=0.5,c/d;q=0.5,c/d;q=0.5,y/y;q=0.9").toList

end goautoneg

/-! ## Properties of the library models and of the loops -/

namespace goautoneg.strings

theorem Split_ne_nil (s : GoString) (sep : Char) : Split s sep ≠ [] := by
  induction s with
  | nil => simp [Split]
  | cons c cs ih =>
    unfold Split
    split
    · simp
    · split <;> simp

theorem Split_cons_sep (cs : GoString) (sep : Char) :
    Split (sep :: cs) sep = [] :: Split cs sep := by
  simp [Split]

theorem Split_cons_ne (c : Char) (cs : GoString) (sep : Char) (h : c ≠ sep) :
    ∃ p ps, Split cs sep = p :: ps ∧ Split (c :: cs) sep = (c :: p) :: ps := by
  cases hs : Split cs sep with
  | nil => exact absurd hs (Split_ne_nil cs sep)
  | cons p ps => exact ⟨p, ps, rfl, by rw [Split, if_neg h, hs]⟩

theorem Split_append (s t : GoString) (sep : Char) :
    Split (s ++ sep :: t) sep = Split s sep ++ Split t sep := by
  induction s with
  | nil => simp [Split]
  | cons c cs ih =>
    by_cases h : c = sep
    · subst h
      rw [List.cons_append, Split_cons_sep, Split_cons_sep, ih, List.cons_append]
    · obtain ⟨p, ps, h1, h2⟩ := Split_cons_ne c cs sep h
      obtain ⟨q, qs, h3, h4⟩ := Split_cons_ne c (cs ++ sep :: t) sep h
      rw [List.cons_append, h4, h2]
      rw [ih, h1] at h3
      simp only [List.cons_append, List.cons.injEq] at h3
      simp [h3.1, h3.2]

theorem Split_of_not_mem (s : GoString) (sep : Char) (h : sep ∉ s) : Split s sep = [s] := by
  induction s with
  | nil => simp [Split]
  | cons c cs ih =>
    have hc : c ≠ sep := fun e => h (by simp [e])
    have hcs : sep ∉ cs := fun e => h (by simp [e])
    obtain ⟨p, ps, h1, h2⟩ := Split_cons_ne c cs sep hc
    rw [ih hcs] at h1
    simp only [List.cons.injEq] at h1
    rw [h2, ← h1.1, ← h1.2]

theorem Split_length (s : GoString) (sep : Char) : (Split s sep).length = s.count sep + 1 := by
  induction s with
  | nil => simp [Split]
  | cons c cs ih =>
    by_cases h : c = sep
    · subst h
      simp [Split_cons_sep, ih]
    · obtain ⟨p, ps, h1, h2⟩ := Split_cons_ne c cs sep h
      have : (List.count sep (c :: cs)) = List.count sep cs := by
        rw [List.count_cons]; simp [h]
      rw [this, ← ih, h2, h1]
      simp

theorem Split_head (s : GoString) (sep : Char) :
    (Split s sep).head? = some (s.takeWhile (fun c => c != sep)) := by
  induction s with
  | nil => simp [Split]
  | cons c cs ih =>
    by_cases h : c = sep
    · subst h
      simp [Split_cons_sep]
    · obtain ⟨p, ps, h1, h2⟩ := Split_cons_ne c cs sep h
      rw [h1] at ih
      simp only [List.head?_cons, Option.some.injEq] at ih
      rw [h2]
      simp [List.takeWhile_cons, h, ih]

theorem SplitN_two_of_not_mem (s : GoString) (sep : Char) (h : sep ∉ s) : SplitN s sep 2 = [s] := by
  induction s with
  | nil => simp [SplitN]
  | cons c cs ih =>
    have hc : c ≠ sep := fun e => h (by simp [e])
    have hcs : sep ∉ cs := fun e => h (by simp [e])
    rw [SplitN, if_neg hc, ih hcs]

theorem SplitN_two_of_mem (s : GoString) (sep : Char) (h : sep ∈ s) :
    SplitN s sep 2 = [s.takeWhile (fun c => c != sep), (s.dropWhile (fun c => c != sep)).tail] := by
  induction s with
  | nil => simp at h
  | cons c cs ih =>
    by_cases hc : c = sep
    · subst hc
      simp [SplitN]
    · have hcs : sep ∈ cs := by
        rcases List.mem_cons.1 h with e | e
        · exact absurd e.symm hc
        · exact e
      rw [SplitN, if_neg hc, ih hcs]
      simp [List.takeWhile_cons, List.dropWhile_cons, hc]

end goautoneg.strings

namespace goautoneg

theorem parsePart_eq (part : GoString) : parsePart part = some (segmentClause part) := by
  unfold segmentClause parsePart
  simp only []
  cases hs : strings.Split (trim part) ';' with
  | nil => exact absurd hs (strings.Split_ne_nil _ _)
  | cons mr params =>
    simp only []
    cases parseTypes _ (strings.Split mr '/') <;> rfl

theorem parseParts_eq (parts : List GoString) (clauses : List Accept) :
    parseParts parts clauses = some (clauses ++ parts.filterMap segmentClause) := by
  induction parts generalizing clauses with
  | nil => simp [parseParts]
  | cons part parts ih =>
    rw [parseParts, parsePart_eq]
    cases hc : segmentClause part with
    | none => simp [ih, List.filterMap_cons, hc]
    | some a => simp [ih, List.filterMap_cons, hc]

theorem ParseAccept_eq (header : GoString) :
    ParseAccept header = some (sort.SliceStable (clausesOf header) lessQ) := by
  unfold ParseAccept clausesOf
  rw [parseParts_eq]
  simp

end goautoneg

namespace goautoneg.sort

variable {α : Type}

theorem split_at_three (data : List α) (a m b : Nat) (ham : a ≤ m) (hmb : m ≤ b) :
    data = data.take a ++ (data.drop a).take (m - a) ++ (data.drop m).take (b - m) ++ data.drop b := by
  have h1 : data.drop m = (data.drop a).drop (m - a) := by
    rw [List.drop_drop]; congr 1; omega
  have h2 : data.drop b = (data.drop m).drop (b - m) := by
    rw [List.drop_drop]; congr 1; omega
  rw [h2, List.append_assoc, List.take_append_drop, h1, List.append_assoc, List.take_append_drop,
    List.take_append_drop]

theorem rotate_perm (data : List α) (a m b : Nat) (ham : a ≤ m) (hmb : m ≤ b) :
    (rotate data a m b).Perm data := by
  conv_rhs => rw [split_at_three data a m b ham hmb]
  unfold rotate
  refine List.Perm.append_right _ ?_
  rw [List.append_assoc, List.append_assoc]
  exact List.Perm.append_left _ List.perm_append_comm

theorem searchLoop_ge (p : Nat → Bool) (fuel i j : Nat) (hij : i ≤ j) :
    i ≤ searchLoop p fuel i j := by
  induction fuel generalizing i j with
  | zero => simp [searchLoop]
  | succ fuel ih =>
    unfold searchLoop
    split
    · simp only []
      split
      · exact Nat.le_trans (by omega) (ih _ _ (by omega))
      · exact ih _ _ (by omega)
    · exact Nat.le_refl _

theorem searchLoop_le (p : Nat → Bool) (fuel i j : Nat) (hij : i ≤ j) :
    searchLoop p fuel i j ≤ j := by
  induction fuel generalizing i j with
  | zero => simpa [searchLoop] using hij
  | succ fuel ih =>
    unfold searchLoop
    split
    · simp only []
      split
      · exact ih _ _ (by omega)
      · exact Nat.le_trans (ih _ _ (by omega)) (by omega)
    · exact hij

theorem symMerge_perm (less : α → α → Bool) (fuel : Nat) (data : List α) (a m b : Nat)
    (ham : a ≤ m) (hmb : m ≤ b) : (symMerge less fuel data a m b).Perm data := by
  induction fuel generalizing data a m b with
  | zero => simp [symMerge]
  | succ fuel ih =>
    have aux : ∀ (start stop mid : Nat),
        (if mid < stop ∧ stop < b then
          symMerge less fuel
            (if a < start ∧ start < mid then
              symMerge less fuel (if start < m ∧ m < stop then rotate data start m stop else data)
                a start mid
             else if start < m ∧ m < stop then rotate data start m stop else data) mid stop b
         else if a < start ∧ start < mid then
              symMerge less fuel (if start < m ∧ m < stop then rotate data start m stop else data)
                a start mid
             else if start < m ∧ m < stop then rotate data start m stop else data).Perm data := by
      intro start stop mid
      have h1 : (if start < m ∧ m < stop then rotate data start m stop else data).Perm data := by
        split
        · next h => exact rotate_perm _ _ _ _ (by omega) (by omega)
        · exact List.Perm.refl _
      have h2 : (if a < start ∧ start < mid then
              symMerge less fuel (if start < m ∧ m < stop then rotate data start m stop else data)
                a start mid
             else if start < m ∧ m < stop then rotate data start m stop else data).Perm data := by
        by_cases hc : a < start ∧ start < mid
        · rw [if_pos hc]; exact (ih _ _ _ _ (by omega) (by omega)).trans h1
        · rw [if_neg hc]; exact h1
      by_cases hc : mid < stop ∧ stop < b
      · rw [if_pos hc]; exact (ih _ _ _ _ (by omega) (by omega)).trans h2
      · rw [if_neg hc]; exact h2
    unfold symMerge
    split
    · exact rotate_perm _ _ _ _ ham (searchLoop_ge _ _ _ _ hmb)
    · split
      · exact rotate_perm _ _ _ _ (searchLoop_le _ _ _ _ ham) hmb
      · exact aux _ _ _

theorem insertLeft_perm (less : α → α → Bool) (x : α) (left : List α) :
    (insertLeft less x left).Perm (x :: left) := by
  induction left with
  | nil => simp [insertLeft]
  | cons y left ih =>
    unfold insertLeft
    split
    · exact (List.Perm.cons y ih).trans (List.Perm.swap x y left)
    · exact List.Perm.refl _

theorem insertionLoop_perm (less : α → α → Bool) (done todo : List α) :
    (insertionLoop less done todo).Perm (done.reverse ++ todo) := by
  induction todo generalizing done with
  | nil => simp [insertionLoop]
  | cons x todo ih =>
    unfold insertionLoop
    refine (ih _).trans ?_
    refine (List.Perm.append_right _ ((List.reverse_perm _).trans
      ((insertLeft_perm less x done).trans (List.Perm.cons x (List.reverse_perm done).symm)))).trans ?_
    simpa using List.perm_middle.symm

theorem insertionSort_perm (less : α → α → Bool) (data : List α) (a b : Nat) (hab : a ≤ b) :
    (insertionSort less data a b).Perm data := by
  have h := split_at_three data a a b (Nat.le_refl a) hab
  simp only [Nat.sub_self, List.take_zero, List.append_nil] at h
  conv_rhs => rw [h]
  unfold insertionSort
  refine List.Perm.append_right _ (List.Perm.append_left _ ?_)
  simpa using insertionLoop_perm less [] _

theorem blockLoop_perm (less : α → α → Bool) (blockSize n fuel : Nat) (data : List α) (a b : Nat)
    (hab : a ≤ b) (han : a ≤ n) : (blockLoop less blockSize n fuel data a b).Perm data := by
  induction fuel generalizing data a b with
  | zero => simp [blockLoop]
  | succ fuel ih =>
    unfold blockLoop
    split
    · next h => exact (ih _ _ _ (by omega) h).trans (insertionSort_perm less data a b hab)
    · exact insertionSort_perm less data a n han

theorem mergePass_perm (less : α → α → Bool) (blockSize n fuel : Nat) (data : List α) (a b : Nat)
    (hab : a + blockSize ≤ b) : (mergePass less blockSize n fuel data a b).Perm data := by
  induction fuel generalizing data a b with
  | zero => simp [mergePass]
  | succ fuel ih =>
    unfold mergePass
    split
    · exact (ih _ _ _ (by omega)).trans (symMerge_perm less _ data _ _ _ (by omega) hab)
    · split
      · next h => exact symMerge_perm less _ data _ _ _ (by omega) (by omega)
      · exact List.Perm.refl _

theorem mergeLoop_perm (less : α → α → Bool) (n fuel : Nat) (data : List α) (blockSize : Nat) :
    (mergeLoop less n fuel data blockSize).Perm data := by
  induction fuel generalizing data blockSize with
  | zero => simp [mergeLoop]
  | succ fuel ih =>
    unfold mergeLoop
    split
    · exact (ih _ _).trans (mergePass_perm less _ _ _ data _ _ (by omega))
    · exact List.Perm.refl _

theorem stable_perm (less : α → α → Bool) (data : List α) : (stable less data).Perm data := by
  unfold stable
  exact (mergeLoop_perm less _ _ _ _).trans (blockLoop_perm less _ _ _ data _ _ (by omega) (by omega))

theorem SliceStable_perm (x : List α) (less : α → α → Bool) : (SliceStable x less).Perm x :=
  stable_perm less x

theorem searchLoop_spec (p : Nat → Bool) (fuel i j : Nat) (hfuel : j - i ≤ fuel) (hij : i ≤ j)
    (hmono : ∀ x y, i ≤ x → x ≤ y → y < j → p y = true → p x = true) :
    (∀ x, i ≤ x → x < searchLoop p fuel i j → p x = true) ∧
      (∀ x, searchLoop p fuel i j ≤ x → x < j → p x = false) := by
  induction fuel generalizing i j with
  | zero =>
    have : i = j := by omega
    subst this
    simp only [searchLoop]
    exact ⟨fun x h1 h2 => by omega, fun x h1 h2 => by omega⟩
  | succ fuel ih =>
    unfold searchLoop
    by_cases hlt : i < j
    · rw [if_pos hlt]
      simp only []
      by_cases hp : p ((i + j) / 2) = true
      · rw [if_pos hp]
        obtain ⟨h1, h2⟩ := ih ((i + j) / 2 + 1) j (by omega) (by omega)
          (fun x y hx hxy hy => hmono x y (by omega) hxy hy)
        refine ⟨fun x hx hxs => ?_, h2⟩
        by_cases hxm : x ≤ (i + j) / 2
        · exact hmono x _ hx hxm (by omega) hp
        · exact h1 x (by omega) hxs
      · rw [if_neg hp]
        obtain ⟨h1, h2⟩ := ih i ((i + j) / 2) (by omega) (by omega)
          (fun x y hx hxy hy => hmono x y hx hxy (by omega))
        refine ⟨h1, fun x hx hxj => ?_⟩
        by_cases hxm : x < (i + j) / 2
        · exact h2 x hx hxm
        · cases hpx : p x with
          | false => rfl
          | true => exact absurd (hmono _ x (by omega) (by omega) hxj hpx) hp
    · rw [if_neg hlt]
      exact ⟨fun x h1 h2 => by omega, fun x h1 h2 => by omega⟩

theorem rotate_append (pre u v post : List α) :
    rotate (pre ++ u ++ v ++ post) pre.length (pre.length + u.length)
      (pre.length + u.length + v.length) = pre ++ v ++ u ++ post := by
  unfold rotate
  have e1 : (pre ++ u ++ v ++ post).take pre.length = pre := by
    rw [List.append_assoc, List.append_assoc, List.take_left']
    rfl
  have e2 : (pre ++ u ++ v ++ post).drop (pre.length + u.length) = v ++ post := by
    rw [List.append_assoc, List.drop_left']
    simp
  have e3 : (pre ++ u ++ v ++ post).drop pre.length = u ++ (v ++ post) := by
    rw [List.append_assoc, List.append_assoc, List.drop_left']
    rfl
  have e4 : (pre ++ u ++ v ++ post).drop (pre.length + u.length + v.length) = post := by
    rw [List.drop_left']
    simp only [List.length_append]
  rw [e1, e2, e3, e4]
  have e5 : pre.length + u.length + v.length - (pre.length + u.length) = v.length := by omega
  have e6 : pre.length + u.length - pre.length = u.length := by omega
  rw [e5, e6, List.take_left', List.take_left'] <;> rfl

theorem getElem?_mid (pre L post : List α) (i : Nat) (hi : i < L.length) :
    (pre ++ L ++ post)[pre.length + i]? = L[i]? := by
  rw [List.append_assoc, List.getElem?_append_right (by omega)]
  have : pre.length + i - pre.length = i := by omega
  rw [this, List.getElem?_append_left hi]

theorem keyFilter_append (k : α → Int) (q : Int) (l1 l2 : List α) :
    keyFilter k q (l1 ++ l2) = keyFilter k q l1 ++ keyFilter k q l2 := by
  unfold keyFilter; exact List.filter_append _ _

theorem keyFilter_eq_nil (k : α → Int) (q : Int) (l : List α) (h : ∀ x ∈ l, k x ≠ q) :
    keyFilter k q l = [] := by
  unfold keyFilter
  rw [List.filter_eq_nil_iff]
  intro x hx
  simpa using h x hx

/-- Two lists whose keys are all different commute under any key filter. -/
theorem keyFilter_comm (k : α → Int) (q : Int) (l1 l2 : List α)
    (h : ∀ x ∈ l1, ∀ y ∈ l2, k x ≠ k y) :
    keyFilter k q l1 ++ keyFilter k q l2 = keyFilter k q l2 ++ keyFilter k q l1 := by
  by_cases h1 : ∃ x ∈ l1, k x = q
  · obtain ⟨x, hx, hxq⟩ := h1
    rw [keyFilter_eq_nil k q l2 (fun y hy e => h x hx y hy (hxq.trans e.symm))]
    simp
  · rw [keyFilter_eq_nil k q l1 (fun x hx e => h1 ⟨x, hx, e⟩)]
    simp

theorem Desc.append (k : α → Int) (l1 l2 : List α) (h1 : Desc k l1) (h2 : Desc k l2)
    (h : ∀ x ∈ l1, ∀ y ∈ l2, k y ≤ k x) : Desc k (l1 ++ l2) :=
  List.pairwise_append.2 ⟨h1, h2, h⟩

theorem Desc.index (k : α → Int) (l : List α) (h : Desc k l) (i j : Nat) (x y : α) (hij : i ≤ j)
    (hx : l[i]? = some x) (hy : l[j]? = some y) : k y ≤ k x := by
  rcases Nat.eq_or_lt_of_le hij with e | hlt
  · subst e
    rw [hx] at hy
    simp only [Option.some.injEq] at hy
    rw [hy]
  · obtain ⟨hi, rfl⟩ := List.getElem?_eq_some_iff.1 hx
    obtain ⟨hj, rfl⟩ := List.getElem?_eq_some_iff.1 hy
    exact (List.pairwise_iff_getElem.1 h) i j hi hj hlt

theorem mem_take_index (l : List α) (u : Nat) (x : α) (h : x ∈ l.take u) :
    ∃ i, i < u ∧ l[i]? = some x := by
  obtain ⟨i, hi, e⟩ := List.mem_iff_getElem.1 h
  rw [List.length_take] at hi
  refine ⟨i, by omega, ?_⟩
  rw [List.getElem_take] at e
  rw [← e]
  exact List.getElem?_eq_getElem _

theorem mem_drop_index (l : List α) (u : Nat) (x : α) (h : x ∈ l.drop u) :
    ∃ i, u ≤ i ∧ l[i]? = some x := by
  obtain ⟨i, hi, e⟩ := List.mem_iff_getElem.1 h
  rw [List.getElem_drop] at e
  refine ⟨u + i, by omega, ?_⟩
  rw [← e]
  exact List.getElem?_eq_getElem _

theorem Desc.take (k : α → Int) (l : List α) (n : Nat) (h : Desc k l) : Desc k (l.take n) :=
  List.Pairwise.sublist (List.take_sublist n l) h

theorem Desc.drop (k : α → Int) (l : List α) (n : Nat) (h : Desc k l) : Desc k (l.drop n) :=
  List.Pairwise.sublist (List.drop_sublist n l) h

theorem Desc.take_drop (k : α → Int) (l : List α) (n : Nat) (h : Desc k l) :
    ∀ x ∈ l.take n, ∀ y ∈ l.drop n, k y ≤ k x := by
  have h1 : Desc k (l.take n ++ l.drop n) := by rw [List.take_append_drop]; exact h
  exact (List.pairwise_append.1 h1).2.2

theorem Merged.mem (k : α → Int) (L R M : List α) (h : Merged k L R M) (x : α) (hx : x ∈ M) :
    x ∈ L ∨ x ∈ R :=
  List.mem_append.1 (h.1.mem_iff.1 hx)

theorem merged_nil_right (k : α → Int) (L : List α) (h : Desc k L) : Merged k L [] L :=
  ⟨by simp, h, fun q => by simp [keyFilter]⟩

theorem merged_nil_left (k : α → Int) (R : List α) (h : Desc k R) : Merged k [] R R :=
  ⟨by simp, h, fun q => by simp [keyFilter]⟩

theorem merged_insert_left (k : α → Int) (x : α) (R : List α) (t : Nat) (hR : Desc k R)
    (h1 : ∀ y ∈ R.take t, k x < k y) (h2 : ∀ y ∈ R.drop t, k y ≤ k x) :
    Merged k [x] R (R.take t ++ [x] ++ R.drop t) := by
  refine ⟨?_, ?_, ?_⟩
  · rw [List.append_assoc, List.singleton_append, List.singleton_append]
    refine List.perm_middle.trans ?_
    rw [List.take_append_drop]
  · rw [List.append_assoc]
    refine Desc.append k _ _ (Desc.take k R t hR) ?_ ?_
    · exact List.pairwise_cons.2 ⟨fun y hy => h2 y hy, Desc.drop k R t hR⟩
    · intro y hy z hz
      rcases List.mem_cons.1 hz with e | hz
      · rw [e]; exact le_of_lt (h1 y hy)
      · exact Desc.take_drop k R t hR y hy z hz
  · intro q
    rw [keyFilter_append, keyFilter_append,
      keyFilter_comm k q (R.take t) [x] (fun y hy z hz => by
        rw [List.mem_singleton.1 hz]; exact ne_of_gt (h1 y hy)),
      List.append_assoc, ← keyFilter_append, List.take_append_drop]

theorem merged_insert_right (k : α → Int) (y : α) (L : List α) (t : Nat) (hL : Desc k L)
    (h1 : ∀ z ∈ L.take t, k y ≤ k z) (h2 : ∀ z ∈ L.drop t, k z < k y) :
    Merged k L [y] (L.take t ++ [y] ++ L.drop t) := by
  refine ⟨?_, ?_, ?_⟩
  · rw [List.append_assoc]
    refine (List.Perm.append_left _ List.perm_append_comm).trans ?_
    rw [← List.append_assoc, List.take_append_drop]
  · rw [List.append_assoc]
    refine Desc.append k _ _ (Desc.take k L t hL) ?_ ?_
    · exact List.pairwise_cons.2 ⟨fun z hz => le_of_lt (h2 z hz), Desc.drop k L t hL⟩
    · intro z hz w hw
      rcases List.mem_cons.1 hw with e | hw
      · rw [e]; exact h1 z hz
      · exact Desc.take_drop k L t hL z hz w hw
  · intro q
    rw [List.append_assoc, keyFilter_append, keyFilter_append,
      keyFilter_comm k q [y] (L.drop t) (fun z hz w hw => by
        rw [List.mem_singleton.1 hz]; exact ne_of_gt (h2 w hw)),
      ← List.append_assoc, ← keyFilter_append, List.take_append_drop]

theorem merged_split (k : α → Int) (L1 L2 R1 R2 M1 M2 : List α)
    (hL : Desc k (L1 ++ L2)) (hR : Desc k (R1 ++ R2))
    (hA : ∀ x ∈ L1, ∀ y ∈ R2, k y ≤ k x) (hB : ∀ y ∈ R1, ∀ x ∈ L2, k x < k y)
    (h1 : Merged k L1 R1 M1) (h2 : Merged k L2 R2 M2) :
    Merged k (L1 ++ L2) (R1 ++ R2) (M1 ++ M2) := by
  refine ⟨?_, ?_, ?_⟩
  · refine (List.Perm.append h1.1 h2.1).trans ?_
    rw [List.append_assoc, List.append_assoc]
    refine List.Perm.append_left _ ?_
    rw [← List.append_assoc, ← List.append_assoc]
    exact List.Perm.append_right _ List.perm_append_comm
  · refine Desc.append k _ _ h1.2.1 h2.2.1 ?_
    intro x hx y hy
    rcases Merged.mem k _ _ _ h1 x hx with hx | hx <;>
      rcases Merged.mem k _ _ _ h2 y hy with hy | hy
    · exact (List.pairwise_append.1 hL).2.2 x hx y hy
    · exact hA x hx y hy
    · exact le_of_lt (hB x hx y hy)
    · exact (List.pairwise_append.1 hR).2.2 x hx y hy
  · intro q
    rw [keyFilter_append, h1.2.2 q, h2.2.2 q, keyFilter_append, keyFilter_append,
      List.append_assoc, List.append_assoc, ← List.append_assoc (keyFilter k q R1),
      keyFilter_comm k q R1 L2 (fun y hy x hx => ne_of_gt (hB y hy x hx)), List.append_assoc]

/-- The comparison of an element of the right block with one of the left block. -/
theorem lessAt_right_left (less : α → α → Bool) (k : α → Int) (pre L R post : List α)
    (hag : Agree less k (L ++ R)) (i j : Nat) (hi : i < R.length) (hj : j < L.length) :
    ∃ y x, R[i]? = some y ∧ L[j]? = some x ∧
      lessAt less (pre ++ L ++ R ++ post) (pre.length + L.length + i) (pre.length + j) =
        decide (k x < k y) := by
  have e1 : (pre ++ L ++ R ++ post)[pre.length + L.length + i]? = R[i]? := by
    have := getElem?_mid (pre ++ L) R post i hi
    rwa [List.length_append] at this
  have e2 : (pre ++ L ++ R ++ post)[pre.length + j]? = L[j]? := by
    have := getElem?_mid pre L (R ++ post) j hj
    rwa [← List.append_assoc] at this
  refine ⟨R[i], L[j], List.getElem?_eq_getElem hi, List.getElem?_eq_getElem hj, ?_⟩
  unfold lessAt
  rw [e1, e2, List.getElem?_eq_getElem hi, List.getElem?_eq_getElem hj]
  exact hag _ (List.mem_append_right _ (List.getElem_mem hi)) _
    (List.mem_append_left _ (List.getElem_mem hj))

/-- The comparison of an element of the left block with one of the right block. -/
theorem lessAt_left_right (less : α → α → Bool) (k : α → Int) (pre L R post : List α)
    (hag : Agree less k (L ++ R)) (i j : Nat) (hi : i < R.length) (hj : j < L.length) :
    ∃ y x, R[i]? = some y ∧ L[j]? = some x ∧
      lessAt less (pre ++ L ++ R ++ post) (pre.length + j) (pre.length + L.length + i) =
        decide (k y < k x) := by
  have e1 : (pre ++ L ++ R ++ post)[pre.length + L.length + i]? = R[i]? := by
    have := getElem?_mid (pre ++ L) R post i hi
    rwa [List.length_append] at this
  have e2 : (pre ++ L ++ R ++ post)[pre.length + j]? = L[j]? := by
    have := getElem?_mid pre L (R ++ post) j hj
    rwa [← List.append_assoc] at this
  refine ⟨R[i], L[j], List.getElem?_eq_getElem hi, List.getElem?_eq_getElem hj, ?_⟩
  unfold lessAt
  rw [e1, e2, List.getElem?_eq_getElem hi, List.getElem?_eq_getElem hj]
  exact hag _ (List.mem_append_left _ (List.getElem_mem hj)) _
    (List.mem_append_right _ (List.getElem_mem hi))

theorem rotate_eq (pre u v post : List α) (a m b : Nat) (data : List α) (ha : a = pre.length)
    (hm : m = pre.length + u.length) (hb : b = pre.length + u.length + v.length)
    (hd : data = pre ++ u ++ v ++ post) : rotate data a m b = pre ++ v ++ u ++ post := by
  subst ha hm hb hd
  exact rotate_append pre u v post

theorem split_block (A R post : List α) (t : Nat) :
    A ++ R ++ post = A ++ R.take t ++ (R.drop t ++ post) := by
  have h : A ++ R.take t ++ (R.drop t ++ post) = A ++ (R.take t ++ R.drop t) ++ post := by
    simp only [List.append_assoc]
  rw [h, List.take_append_drop]

/-- The first shortcut of `symMerge`: the single element of the left block is inserted
into the right block. -/
theorem symMerge_single_left (less : α → α → Bool) (k : α → Int) (pre R post : List α) (x : α)
    (f : Nat) (hf : R.length ≤ f) (hR : Desc k R) (hag : Agree less k ([x] ++ R)) :
    ∃ M, rotate (pre ++ [x] ++ R ++ post) pre.length (pre.length + [x].length)
        (searchLoop (fun h => lessAt less (pre ++ [x] ++ R ++ post) h pre.length) f
          (pre.length + [x].length) (pre.length + [x].length + R.length)) =
        pre ++ M ++ post ∧ Merged k [x] R M := by
  have hp : ∀ h, pre.length + [x].length ≤ h → h < pre.length + [x].length + R.length →
      ∃ y, R[h - (pre.length + [x].length)]? = some y ∧
        lessAt less (pre ++ [x] ++ R ++ post) h pre.length = decide (k x < k y) := by
    intro h h1 h2
    obtain ⟨y, x1, hy, hx1, e⟩ := lessAt_right_left less k pre [x] R post hag
      (h - (pre.length + [x].length)) 0 (by omega) (by simp)
    have hx : x1 = x := by simpa using hx1.symm
    subst hx
    refine ⟨y, hy, ?_⟩
    have e3 : pre.length + [x1].length + (h - (pre.length + [x1].length)) = h := by omega
    rw [e3, Nat.add_zero] at e
    exact e
  obtain ⟨hs1, hs2⟩ := searchLoop_spec
    (fun h => lessAt less (pre ++ [x] ++ R ++ post) h pre.length) f
    (pre.length + [x].length) (pre.length + [x].length + R.length) (by omega) (by omega) (by
      intro h1 h2 hh1 hh12 hh2 hp2
      obtain ⟨y1, hy1, e1⟩ := hp h1 hh1 (by omega)
      obtain ⟨y2, hy2, e2⟩ := hp h2 (by omega) hh2
      simp only [e2, decide_eq_true_eq] at hp2
      simp only [e1, decide_eq_true_eq]
      exact lt_of_lt_of_le hp2 (Desc.index k R hR _ _ y1 y2 (by omega) hy1 hy2))
  have hge := searchLoop_ge (fun h => lessAt less (pre ++ [x] ++ R ++ post) h pre.length) f
    (pre.length + [x].length) (pre.length + [x].length + R.length) (by omega)
  have hle := searchLoop_le (fun h => lessAt less (pre ++ [x] ++ R ++ post) h pre.length) f
    (pre.length + [x].length) (pre.length + [x].length + R.length) (by omega)
  generalize searchLoop (fun h => lessAt less (pre ++ [x] ++ R ++ post) h pre.length) f
    (pre.length + [x].length) (pre.length + [x].length + R.length) = i at hs1 hs2 hge hle
  obtain ⟨t, rfl⟩ : ∃ t, i = pre.length + [x].length + t := ⟨i - (pre.length + [x].length), by omega⟩
  have ht : t ≤ R.length := by omega
  refine ⟨R.take t ++ [x] ++ R.drop t, ?_, ?_⟩
  · rw [rotate_eq pre [x] (R.take t) (R.drop t ++ post) _ _ _ _ rfl rfl
      (by rw [List.length_take]; omega)
      (split_block _ R post t)]
    simp
  · refine merged_insert_left k x R t hR ?_ ?_
    · intro y hy
      obtain ⟨idx, hidx, e⟩ := mem_take_index R t y hy
      have hlen : idx < R.length := by
        rcases List.getElem?_eq_some_iff.1 e with ⟨h, _⟩; exact h
      obtain ⟨y1, hy1, e1⟩ := hp (pre.length + [x].length + idx) (by omega) (by omega)
      have := hs1 (pre.length + [x].length + idx) (by omega) (by omega)
      simp only [e1, decide_eq_true_eq] at this
      have e3 : pre.length + [x].length + idx - (pre.length + [x].length) = idx := by omega
      rw [e3, e] at hy1
      simp only [Option.some.injEq] at hy1
      rw [hy1]; exact this
    · intro y hy
      obtain ⟨idx, hidx, e⟩ := mem_drop_index R t y hy
      have hlen : idx < R.length := by
        rcases List.getElem?_eq_some_iff.1 e with ⟨h, _⟩; exact h
      obtain ⟨y1, hy1, e1⟩ := hp (pre.length + [x].length + idx) (by omega) (by omega)
      have := hs2 (pre.length + [x].length + idx) (by omega) (by omega)
      simp only [e1, decide_eq_false_iff_not, not_lt] at this
      have e3 : pre.length + [x].length + idx - (pre.length + [x].length) = idx := by omega
      rw [e3, e] at hy1
      simp only [Option.some.injEq] at hy1
      rw [hy1]; exact this

/-- The second shortcut of `symMerge`: the single element of the right block is inserted
into the left block. -/
theorem symMerge_single_right (less : α → α → Bool) (k : α → Int) (pre L post : List α) (y : α)
    (f : Nat) (hf : L.length ≤ f) (hL : Desc k L) (hag : Agree less k (L ++ [y])) :
    ∃ M, rotate (pre ++ L ++ [y] ++ post)
        (searchLoop (fun h => !lessAt less (pre ++ L ++ [y] ++ post) (pre.length + L.length) h) f
          pre.length (pre.length + L.length))
        (pre.length + L.length) (pre.length + L.length + [y].length) =
        pre ++ M ++ post ∧ Merged k L [y] M := by
  have hp : ∀ h, pre.length ≤ h → h < pre.length + L.length →
      ∃ x, L[h - pre.length]? = some x ∧
        lessAt less (pre ++ L ++ [y] ++ post) (pre.length + L.length) h = decide (k x < k y) := by
    intro h h1 h2
    obtain ⟨y1, x, hy1, hx, e⟩ := lessAt_right_left less k pre L [y] post hag
      0 (h - pre.length) (by simp) (by omega)
    have hy : y1 = y := by simpa using hy1.symm
    subst hy
    refine ⟨x, hx, ?_⟩
    have e3 : pre.length + (h - pre.length) = h := by omega
    rw [e3, Nat.add_zero] at e
    exact e
  obtain ⟨hs1, hs2⟩ := searchLoop_spec
    (fun h => !lessAt less (pre ++ L ++ [y] ++ post) (pre.length + L.length) h) f
    pre.length (pre.length + L.length) (by omega) (by omega) (by
      intro h1 h2 hh1 hh12 hh2 hp2
      obtain ⟨x1, hx1, e1⟩ := hp h1 hh1 (by omega)
      obtain ⟨x2, hx2, e2⟩ := hp h2 (by omega) hh2
      simp only [e2, Bool.not_eq_true', decide_eq_false_iff_not, not_lt] at hp2
      simp only [e1, Bool.not_eq_true', decide_eq_false_iff_not, not_lt]
      exact le_trans hp2 (Desc.index k L hL _ _ x1 x2 (by omega) hx1 hx2))
  have hge := searchLoop_ge
    (fun h => !lessAt less (pre ++ L ++ [y] ++ post) (pre.length + L.length) h) f
    pre.length (pre.length + L.length) (by omega)
  have hle := searchLoop_le
    (fun h => !lessAt less (pre ++ L ++ [y] ++ post) (pre.length + L.length) h) f
    pre.length (pre.length + L.length) (by omega)
  generalize searchLoop
    (fun h => !lessAt less (pre ++ L ++ [y] ++ post) (pre.length + L.length) h) f
    pre.length (pre.length + L.length) = i at hs1 hs2 hge hle
  obtain ⟨t, rfl⟩ : ∃ t, i = pre.length + t := ⟨i - pre.length, by omega⟩
  have ht : t ≤ L.length := by omega
  refine ⟨L.take t ++ [y] ++ L.drop t, ?_, ?_⟩
  · rw [rotate_eq (pre ++ L.take t) (L.drop t) [y] post _ _ _ _
      (by rw [List.length_append, List.length_take]; omega)
      (by rw [List.length_append, List.length_take, List.length_drop]; omega)
      (by rw [List.length_append, List.length_take, List.length_drop]; omega)
      (by rw [List.append_assoc pre (L.take t), List.take_append_drop])]
    simp
  · refine merged_insert_right k y L t hL ?_ ?_
    · intro z hz
      obtain ⟨idx, hidx, e⟩ := mem_take_index L t z hz
      have hlen : idx < L.length := by
        rcases List.getElem?_eq_some_iff.1 e with ⟨h, _⟩; exact h
      obtain ⟨x1, hx1, e1⟩ := hp (pre.length + idx) (by omega) (by omega)
      have := hs1 (pre.length + idx) (by omega) (by omega)
      simp only [e1, Bool.not_eq_true', decide_eq_false_iff_not, not_lt] at this
      have e3 : pre.length + idx - pre.length = idx := by omega
      rw [e3, e] at hx1
      simp only [Option.some.injEq] at hx1
      rw [hx1]; exact this
    · intro z hz
      obtain ⟨idx, hidx, e⟩ := mem_drop_index L t z hz
      have hlen : idx < L.length := by
        rcases List.getElem?_eq_some_iff.1 e with ⟨h, _⟩; exact h
      obtain ⟨x1, hx1, e1⟩ := hp (pre.length + idx) (by omega) (by omega)
      have := hs2 (pre.length + idx) (by omega) (by omega)
      simp only [e1, Bool.not_eq_false', decide_eq_true_eq] at this
      have e3 : pre.length + idx - pre.length = idx := by omega
      rw [e3, e] at hx1
      simp only [Option.some.injEq] at hx1
      rw [hx1]; exact this

/-- The binary search of the general case of `symMerge` finds a cut `u` of the left block
and a cut `v` of the right block, of total size half the range, such that everything
before the cuts goes before everything after them. -/
theorem symMerge_split_point (less : α → α → Bool) (k : α → Int) (pre L R post : List α)
    (hL : Desc k L) (hR : Desc k R)
    (hag : Agree less k (L ++ R)) (mid start0 r f : Nat)
    (hmid : mid = (pre.length + (pre.length + L.length + R.length)) / 2)
    (h0 : (mid < pre.length + L.length ∧
            start0 = mid + (pre.length + L.length) - (pre.length + L.length + R.length) ∧
            r = mid) ∨
          (pre.length + L.length ≤ mid ∧ start0 = pre.length ∧ r = pre.length + L.length))
    (hf : r - start0 ≤ f) :
    ∃ u v, searchLoop (fun c => !lessAt less (pre ++ L ++ R ++ post)
          (mid + (pre.length + L.length) - 1 - c) c) f start0 r = pre.length + u ∧
      mid = pre.length + u + v ∧ u ≤ L.length ∧ v ≤ R.length ∧
      (∀ x ∈ L.take u, ∀ y ∈ R.drop v, k y ≤ k x) ∧
      (∀ y ∈ R.take v, ∀ x ∈ L.drop u, k x < k y) := by
  have hp : ∀ c, start0 ≤ c → c < r →
      ∃ y x, R[mid - 1 - c]? = some y ∧ L[c - pre.length]? = some x ∧
        lessAt less (pre ++ L ++ R ++ post) (mid + (pre.length + L.length) - 1 - c) c =
          decide (k x < k y) := by
    intro c h1 h2
    obtain ⟨y, x, hy, hx, e⟩ := lessAt_right_left less k pre L R post hag
      (mid - 1 - c) (c - pre.length) (by omega) (by omega)
    refine ⟨y, x, hy, hx, ?_⟩
    have e1 : pre.length + L.length + (mid - 1 - c) = mid + (pre.length + L.length) - 1 - c := by
      omega
    have e2 : pre.length + (c - pre.length) = c := by omega
    rw [e1, e2] at e
    exact e
  have hs0r : start0 ≤ r := by omega
  obtain ⟨hs1, hs2⟩ := searchLoop_spec
    (fun c => !lessAt less (pre ++ L ++ R ++ post) (mid + (pre.length + L.length) - 1 - c) c)
    f start0 r hf hs0r (by
      intro c1 c2 hc1 hc12 hc2 hp2
      obtain ⟨y1, x1, hy1, hx1, e1⟩ := hp c1 hc1 (by omega)
      obtain ⟨y2, x2, hy2, hx2, e2⟩ := hp c2 (by omega) hc2
      simp only [e2, Bool.not_eq_true', decide_eq_false_iff_not, not_lt] at hp2
      simp only [e1, Bool.not_eq_true', decide_eq_false_iff_not, not_lt]
      exact le_trans (Desc.index k R hR _ _ y2 y1 (by omega) hy2 hy1)
        (le_trans hp2 (Desc.index k L hL _ _ x1 x2 (by omega) hx1 hx2)))
  have hge := searchLoop_ge
    (fun c => !lessAt less (pre ++ L ++ R ++ post) (mid + (pre.length + L.length) - 1 - c) c)
    f start0 r hs0r
  have hle := searchLoop_le
    (fun c => !lessAt less (pre ++ L ++ R ++ post) (mid + (pre.length + L.length) - 1 - c) c)
    f start0 r hs0r
  generalize searchLoop
    (fun c => !lessAt less (pre ++ L ++ R ++ post) (mid + (pre.length + L.length) - 1 - c) c)
    f start0 r = start at hs1 hs2 hge hle
  refine ⟨start - pre.length, mid - start, by omega, by omega, by omega, by omega, ?_, ?_⟩
  · intro x hx y hy
    obtain ⟨i1, hi1, ex⟩ := mem_take_index L _ x hx
    obtain ⟨i2, hi2, ey⟩ := mem_drop_index R _ y hy
    have hlen2 : i2 < R.length := by
      rcases List.getElem?_eq_some_iff.1 ey with ⟨h, _⟩; exact h
    obtain ⟨y1, x1, hy1, hx1, e1⟩ := hp (start - 1) (by omega) (by omega)
    have := hs1 (start - 1) (by omega) (by omega)
    simp only [e1, Bool.not_eq_true', decide_eq_false_iff_not, not_lt] at this
    exact le_trans (Desc.index k R hR _ _ y1 y (by omega) hy1 ey)
      (le_trans this (Desc.index k L hL _ _ x x1 (by omega) ex hx1))
  · intro y hy x hx
    obtain ⟨i2, hi2, ey⟩ := mem_take_index R _ y hy
    obtain ⟨i1, hi1, ex⟩ := mem_drop_index L _ x hx
    have hlen1 : i1 < L.length := by
      rcases List.getElem?_eq_some_iff.1 ex with ⟨h, _⟩; exact h
    obtain ⟨y1, x1, hy1, hx1, e1⟩ := hp start (by omega) (by omega)
    have := hs2 start (by omega) (by omega)
    simp only [e1, Bool.not_eq_false', decide_eq_true_eq] at this
    exact lt_of_le_of_lt (Desc.index k L hL _ _ x1 x (by omega) hx1 ex)
      (lt_of_lt_of_le this (Desc.index k R hR _ _ y y1 (by omega) ey hy1))

/-- The statement proved about `symMerge` by induction on the fuel. -/
theorem symMerge_step (less : α → α → Bool) (k : α → Int) (fuel : Nat)
    (ih : ∀ (pre L R post : List α), L ≠ [] → R ≠ [] → L.length + R.length ≤ fuel →
      Desc k L → Desc k R → Agree less k (L ++ R) →
      ∃ M, symMerge less fuel (pre ++ L ++ R ++ post) pre.length (pre.length + L.length)
        (pre.length + L.length + R.length) = pre ++ M ++ post ∧ Merged k L R M)
    (pre L R post : List α) (hfuel : L.length + R.length ≤ fuel + 1)
    (hL2 : 2 ≤ L.length) (hR2 : 2 ≤ R.length)
    (hL : Desc k L) (hR : Desc k R) (hag : Agree less k (L ++ R))
    (u v start stop mid : Nat) (hu : u ≤ L.length) (hv : v ≤ R.length)
    (hmid : mid = (pre.length + (pre.length + L.length + R.length)) / 2)
    (hstart : start = pre.length + u) (hstop : stop = pre.length + L.length + v)
    (huv : mid = pre.length + u + v)
    (hA : ∀ x ∈ L.take u, ∀ y ∈ R.drop v, k y ≤ k x)
    (hB : ∀ y ∈ R.take v, ∀ x ∈ L.drop u, k x < k y) :
    ∃ M,
      (if mid < stop ∧ stop < pre.length + L.length + R.length then
        symMerge less fuel
          (if pre.length < start ∧ start < mid then
            symMerge less fuel
              (if start < pre.length + L.length ∧ pre.length + L.length < stop then
                rotate (pre ++ L ++ R ++ post) start (pre.length + L.length) stop
               else pre ++ L ++ R ++ post) pre.length start mid
           else if start < pre.length + L.length ∧ pre.length + L.length < stop then
                rotate (pre ++ L ++ R ++ post) start (pre.length + L.length) stop
               else pre ++ L ++ R ++ post) mid stop (pre.length + L.length + R.length)
       else if pre.length < start ∧ start < mid then
            symMerge less fuel
              (if start < pre.length + L.length ∧ pre.length + L.length < stop then
                rotate (pre ++ L ++ R ++ post) start (pre.length + L.length) stop
               else pre ++ L ++ R ++ post) pre.length start mid
           else if start < pre.length + L.length ∧ pre.length + L.length < stop then
                rotate (pre ++ L ++ R ++ post) start (pre.length + L.length) stop
               else pre ++ L ++ R ++ post) = pre ++ M ++ post ∧ Merged k L R M := by
  have ih1 : ∀ (pre L R post data : List α) (a m b : Nat), a = pre.length →
      m = pre.length + L.length → b = pre.length + L.length + R.length →
      data = pre ++ L ++ R ++ post → L ≠ [] → R ≠ [] → L.length + R.length ≤ fuel →
      Desc k L → Desc k R → Agree less k (L ++ R) →
      ∃ M, symMerge less fuel data a m b = pre ++ M ++ post ∧ Merged k L R M := by
    intro pre L R post data a m b ha hm hb hd
    subst ha hm hb hd
    exact ih pre L R post
  have lu : (L.take u).length = u := by rw [List.length_take]; omega
  have lv : (R.take v).length = v := by rw [List.length_take]; omega
  have lu2 : (L.drop u).length = L.length - u := List.length_drop _ _
  have lv2 : (R.drop v).length = R.length - v := List.length_drop _ _
  have eL : L.take u ++ L.drop u = L := List.take_append_drop u L
  have eR : R.take v ++ R.drop v = R := List.take_append_drop v R
  have hagsub : ∀ (A B : List α), (∀ x ∈ A, x ∈ L) → (∀ x ∈ B, x ∈ R) → Agree less k (A ++ B) := by
    intro A B hAL hBR x hx y hy
    refine hag x ?_ y ?_
    · rcases List.mem_append.1 hx with h | h
      · exact List.mem_append_left _ (hAL x h)
      · exact List.mem_append_right _ (hBR x h)
    · rcases List.mem_append.1 hy with h | h
      · exact List.mem_append_left _ (hAL y h)
      · exact List.mem_append_right _ (hBR y h)
  have hag1 : Agree less k (L.take u ++ R.take v) :=
    hagsub _ _ (fun x h => List.mem_of_mem_take h) (fun x h => List.mem_of_mem_take h)
  have hag2 : Agree less k (L.drop u ++ R.drop v) :=
    hagsub _ _ (fun x h => List.mem_of_mem_drop h) (fun x h => List.mem_of_mem_drop h)
  -- the data after the rotation
  have hD1 : (if start < pre.length + L.length ∧ pre.length + L.length < stop then
                rotate (pre ++ L ++ R ++ post) start (pre.length + L.length) stop
               else pre ++ L ++ R ++ post) =
      pre ++ L.take u ++ R.take v ++ (L.drop u ++ R.drop v ++ post) := by
    by_cases hc : start < pre.length + L.length ∧ pre.length + L.length < stop
    · rw [if_pos hc, rotate_eq (pre ++ L.take u) (L.drop u) (R.take v) (R.drop v ++ post) _ _ _ _
        (by rw [List.length_append, lu]; omega)
        (by rw [List.length_append, lu, lu2]; omega)
        (by rw [List.length_append, lu, lu2, lv]; omega)
        (by rw [List.append_assoc pre (L.take u), eL, ← split_block])]
      simp only [List.append_assoc]
    · rw [if_neg hc]
      by_cases hu1 : u = L.length
      · have : L.drop u = [] := by rw [hu1]; exact List.drop_length L
        rw [this, hu1, List.take_length, List.nil_append, ← split_block]
      · have hv0 : v = 0 := by omega
        rw [hv0, List.take_zero, List.drop_zero, List.append_nil]
        conv_lhs => rw [← eL]
        simp only [List.append_assoc]
  rw [hD1]
  -- the first half
  have hD2 : ∃ M1, (if pre.length < start ∧ start < mid then
            symMerge less fuel (pre ++ L.take u ++ R.take v ++ (L.drop u ++ R.drop v ++ post))
              pre.length start mid
           else pre ++ L.take u ++ R.take v ++ (L.drop u ++ R.drop v ++ post)) =
      pre ++ M1 ++ (L.drop u ++ R.drop v ++ post) ∧ Merged k (L.take u) (R.take v) M1 := by
    by_cases hc : pre.length < start ∧ start < mid
    · rw [if_pos hc]
      exact ih1 pre (L.take u) (R.take v) _ _ _ _ _ rfl (by rw [lu]; omega) (by rw [lu, lv]; omega)
        rfl (by intro e; rw [e] at lu; simp at lu; omega)
        (by intro e; rw [e] at lv; simp at lv; omega) (by rw [lu, lv]; omega)
        (Desc.take k L u hL) (Desc.take k R v hR) hag1
    · rw [if_neg hc]
      by_cases hu0 : u = 0
      · refine ⟨R.take v, ?_, ?_⟩
        · rw [hu0, List.take_zero, List.append_nil]
        · rw [hu0, List.take_zero]
          exact merged_nil_left k _ (Desc.take k R v hR)
      · have hv0 : v = 0 := by omega
        refine ⟨L.take u, ?_, ?_⟩
        · rw [hv0, List.take_zero, List.append_nil]
        · rw [hv0, List.take_zero]
          exact merged_nil_right k _ (Desc.take k L u hL)
  obtain ⟨M1, hM1, hmg1⟩ := hD2
  rw [hM1]
  have lM1 : M1.length = u + v := by
    rw [hmg1.1.length_eq, List.length_append, lu, lv]
  -- the second half
  have hD3 : ∃ M2, (if mid < stop ∧ stop < pre.length + L.length + R.length then
        symMerge less fuel (pre ++ M1 ++ (L.drop u ++ R.drop v ++ post)) mid stop
          (pre.length + L.length + R.length)
       else pre ++ M1 ++ (L.drop u ++ R.drop v ++ post)) =
      pre ++ M1 ++ M2 ++ post ∧ Merged k (L.drop u) (R.drop v) M2 := by
    by_cases hc : mid < stop ∧ stop < pre.length + L.length + R.length
    · rw [if_pos hc]
      exact ih1 (pre ++ M1) (L.drop u) (R.drop v) post _ _ _ _
        (by rw [List.length_append, lM1]; omega)
        (by rw [List.length_append, lM1, lu2]; omega)
        (by rw [List.length_append, lM1, lu2, lv2]; omega)
        (by simp only [List.append_assoc])
        (by intro e; rw [e] at lu2; simp at lu2; omega)
        (by intro e; rw [e] at lv2; simp at lv2; omega) (by rw [lu2, lv2]; omega)
        (Desc.drop k L u hL) (Desc.drop k R v hR) hag2
    · rw [if_neg hc]
      by_cases hu1 : u = L.length
      · have e : L.drop u = [] := by rw [hu1]; exact List.drop_length L
        refine ⟨R.drop v, ?_, ?_⟩
        · rw [e]; simp only [List.nil_append, List.append_assoc]
        · rw [e]; exact merged_nil_left k _ (Desc.drop k R v hR)
      · have hv1 : v = R.length := by omega
        have e : R.drop v = [] := by rw [hv1]; exact List.drop_length R
        refine ⟨L.drop u, ?_, ?_⟩
        · rw [e]; simp only [List.append_nil, List.append_assoc]
        · rw [e]; exact merged_nil_right k _ (Desc.drop k L u hL)
  obtain ⟨M2, hM2, hmg2⟩ := hD3
  refine ⟨M1 ++ M2, ?_, ?_⟩
  · rw [hM2]; simp only [List.append_assoc]
  · have := merged_split k (L.take u) (L.drop u) (R.take v) (R.drop v) M1 M2
      (by rw [eL]; exact hL) (by rw [eR]; exact hR) hA hB hmg1 hmg2
    rwa [eL, eR] at this

/-- `symMerge` merges two neighbouring sorted blocks stably, given enough fuel. -/
theorem symMerge_spec (less : α → α → Bool) (k : α → Int) (fuel : Nat) :
    ∀ (pre L R post : List α), L ≠ [] → R ≠ [] → L.length + R.length ≤ fuel →
      Desc k L → Desc k R → Agree less k (L ++ R) →
      ∃ M, symMerge less fuel (pre ++ L ++ R ++ post) pre.length (pre.length + L.length)
        (pre.length + L.length + R.length) = pre ++ M ++ post ∧ Merged k L R M := by
  induction fuel with
  | zero =>
    intro pre L R post hLne _ hfuel
    cases L with
    | nil => exact absurd rfl hLne
    | cons x xs => simp at hfuel
  | succ fuel ih =>
    intro pre L R post hLne hRne hfuel hL hR hag
    have hLpos : 0 < L.length := List.length_pos.2 hLne
    have hRpos : 0 < R.length := List.length_pos.2 hRne
    unfold symMerge
    by_cases h1 : pre.length + L.length - pre.length = 1
    · rw [if_pos h1]
      obtain ⟨x, rfl⟩ : ∃ x, L = [x] := List.length_eq_one.1 (by omega)
      exact symMerge_single_left less k pre R post x _ (by omega) hR hag
    · rw [if_neg h1]
      by_cases h2 : pre.length + L.length + R.length - (pre.length + L.length) = 1
      · rw [if_pos h2]
        obtain ⟨y, rfl⟩ : ∃ y, R = [y] := List.length_eq_one.1 (by omega)
        exact symMerge_single_right less k pre L post y _ (by omega) hL hag
      · rw [if_neg h2]
        simp only []
        obtain ⟨u, v, hs, huv, hu, hv, hA, hB⟩ := symMerge_split_point less k pre L R post hL hR hag
          ((pre.length + (pre.length + L.length + R.length)) / 2)
          (if pre.length + L.length > (pre.length + (pre.length + L.length + R.length)) / 2 then
            (pre.length + (pre.length + L.length + R.length)) / 2 + (pre.length + L.length) -
              (pre.length + L.length + R.length)
           else pre.length)
          (if pre.length + L.length > (pre.length + (pre.length + L.length + R.length)) / 2 then
            (pre.length + (pre.length + L.length + R.length)) / 2
           else pre.length + L.length)
          _ rfl (by
            by_cases hc : pre.length + L.length >
                (pre.length + (pre.length + L.length + R.length)) / 2
            · rw [if_pos hc, if_pos hc]; exact Or.inl ⟨hc, rfl, rfl⟩
            · rw [if_neg hc, if_neg hc]; exact Or.inr ⟨by omega, rfl, rfl⟩) (Nat.le_refl _)
        rw [hs]
        exact symMerge_step less k fuel ih pre L R post hfuel (by omega) (by omega) hL hR hag
          u v _ _ _ hu hv rfl rfl (by omega) huv hA hB

/-- Insertion never moves an element past another one when both satisfy `p`,
provided `less` never holds between two such elements: the `p`-elements keep their
order. -/
theorem insertLeft_filter (less : α → α → Bool) (p : α → Bool) (x : α) (left : List α)
    (h : ∀ y ∈ left, less x y = true → ¬(p x = true ∧ p y = true)) :
    (insertLeft less x left).filter p = (x :: left).filter p := by
  induction left with
  | nil => rfl
  | cons y left ih =>
    unfold insertLeft
    by_cases hl : less x y = true
    · rw [if_pos hl, List.filter_cons, ih (fun z hz => h z (List.mem_cons_of_mem _ hz))]
      have hxy := h y (List.mem_cons_self _ _) hl
      cases hpx : p x <;> cases hpy : p y <;> simp [List.filter_cons, hpx, hpy] at hxy ⊢
    · rw [if_neg hl]

theorem insertionLoop_filter (less : α → α → Bool) (p : α → Bool) (done todo : List α)
    (h : ∀ x ∈ done ++ todo, ∀ y ∈ done ++ todo, less x y = true → ¬(p x = true ∧ p y = true)) :
    (insertionLoop less done todo).filter p = (done.reverse ++ todo).filter p := by
  induction todo generalizing done with
  | nil => simp [insertionLoop]
  | cons x todo ih =>
    unfold insertionLoop
    have hmem : ∀ z, z ∈ insertLeft less x done ++ todo → z ∈ done ++ x :: todo := by
      intro z hz
      rcases List.mem_append.1 hz with hz | hz
      · rcases List.mem_cons.1 ((insertLeft_perm less x done).mem_iff.1 hz) with e | hz
        · rw [e]; simp
        · exact List.mem_append_left _ hz
      · exact List.mem_append_right _ (List.mem_cons_of_mem _ hz)
    rw [ih _ (fun a ha b hb => h a (hmem a ha) b (hmem b hb)), List.filter_append,
      List.filter_reverse,
      insertLeft_filter less p x done (fun y hy =>
        h x (by simp) y (List.mem_append_left _ hy)),
      List.filter_append, List.filter_reverse, List.filter_cons, List.filter_cons]
    cases p x <;> simp

theorem insertLeft_asc (less : α → α → Bool) (k : α → Int) (x : α) (left : List α)
    (hasc : left.Pairwise (fun a b => k a ≤ k b)) (hag : Agree less k (x :: left)) :
    (insertLeft less x left).Pairwise (fun a b => k a ≤ k b) := by
  induction left with
  | nil => simp [insertLeft]
  | cons y left ih =>
    have hxy : less x y = decide (k y < k x) :=
      hag x (List.mem_cons_self _ _) y (List.mem_cons_of_mem _ (List.mem_cons_self _ _))
    obtain ⟨hy, hleft⟩ := List.pairwise_cons.1 hasc
    unfold insertLeft
    by_cases hl : less x y = true
    · rw [if_pos hl]
      rw [hxy, decide_eq_true_eq] at hl
      refine List.pairwise_cons.2 ⟨?_, ih hleft ?_⟩
      · intro z hz
        rcases List.mem_cons.1 ((insertLeft_perm less x left).mem_iff.1 hz) with e | hz
        · rw [e]; exact le_of_lt hl
        · exact hy z hz
      · intro a ha b hb
        refine hag a ?_ b ?_
        · rcases List.mem_cons.1 ha with e | ha
          · rw [e]; exact List.mem_cons_self _ _
          · exact List.mem_cons_of_mem _ (List.mem_cons_of_mem _ ha)
        · rcases List.mem_cons.1 hb with e | hb
          · rw [e]; exact List.mem_cons_self _ _
          · exact List.mem_cons_of_mem _ (List.mem_cons_of_mem _ hb)
    · rw [if_neg hl]
      rw [hxy, decide_eq_true_eq, not_lt] at hl
      refine List.pairwise_cons.2 ⟨?_, hasc⟩
      intro z hz
      rcases List.mem_cons.1 hz with e | hz
      · rw [e]; exact hl
      · exact le_trans hl (hy z hz)

theorem insertionLoop_desc (less : α → α → Bool) (k : α → Int) (done todo : List α)
    (hasc : done.Pairwise (fun a b => k a ≤ k b)) (hag : Agree less k (done ++ todo)) :
    Desc k (insertionLoop less done todo) := by
  induction todo generalizing done with
  | nil =>
    unfold insertionLoop Desc
    exact List.pairwise_reverse.2 hasc
  | cons x todo ih =>
    unfold insertionLoop
    have hmem : ∀ z, z ∈ insertLeft less x done ++ todo → z ∈ done ++ x :: todo := by
      intro z hz
      rcases List.mem_append.1 hz with hz | hz
      · rcases List.mem_cons.1 ((insertLeft_perm less x done).mem_iff.1 hz) with e | hz
        · rw [e]; simp
        · exact List.mem_append_left _ hz
      · exact List.mem_append_right _ (List.mem_cons_of_mem _ hz)
    refine ih _ (insertLeft_asc less k x done hasc ?_) (fun a ha b hb =>
      hag a (hmem a ha) b (hmem b hb))
    intro a ha b hb
    refine hag a ?_ b ?_
    · rcases List.mem_cons.1 ha with e | ha
      · rw [e]; simp
      · exact List.mem_append_left _ ha
    · rcases List.mem_cons.1 hb with e | hb
      · rw [e]; simp
      · exact List.mem_append_left _ hb

/-- Insertion sort is a stable sort. -/
theorem insertionLoop_stableSorted (less : α → α → Bool) (k : α → Int) (l : List α)
    (hag : Agree less k l) : StableSorted k l (insertionLoop less [] l) := by
  refine ⟨by simpa using insertionLoop_perm less [] l,
    insertionLoop_desc less k [] l List.Pairwise.nil (by simpa using hag), ?_⟩
  intro q
  unfold keyFilter
  rw [insertionLoop_filter less _ [] l]
  · simp
  · intro x hx y hy hl hxy
    simp only [List.nil_append] at hx hy
    rw [hag x hx y hy, decide_eq_true_eq] at hl
    simp only [decide_eq_true_eq] at hxy
    omega

theorem insertionSort_append (less : α → α → Bool) (pre c post : List α) :
    insertionSort less (pre ++ c ++ post) pre.length (pre.length + c.length) =
      pre ++ insertionLoop less [] c ++ post := by
  unfold insertionSort
  have e1 : (pre ++ c ++ post).take pre.length = pre := by
    rw [List.append_assoc, List.take_left']; rfl
  have e2 : (pre ++ c ++ post).drop pre.length = c ++ post := by
    rw [List.append_assoc, List.drop_left']; rfl
  have e3 : (pre ++ c ++ post).drop (pre.length + c.length) = post := by
    rw [List.drop_left']; simp only [List.length_append]
  have e4 : pre.length + c.length - pre.length = c.length := by omega
  rw [e1, e2, e3, e4, List.take_left' rfl]

theorem StableSorted.nil (k : α → Int) : StableSorted k ([] : List α) [] :=
  ⟨List.Perm.refl _, List.Pairwise.nil, fun _ => rfl⟩

theorem StableSorted.of_merged (k : α → Int) (o1 o2 c1 c2 M : List α)
    (h1 : StableSorted k o1 c1) (h2 : StableSorted k o2 c2) (hm : Merged k c1 c2 M) :
    StableSorted k (o1 ++ o2) M := by
  refine ⟨hm.1.trans (List.Perm.append h1.1 h2.1), hm.2.1, fun q => ?_⟩
  rw [hm.2.2 q, h1.2.2 q, h2.2.2 q, keyFilter_append]

theorem Blocked.perm (k : α → Int) (bs : Nat) (orig cur : List α) (h : Blocked k bs orig cur) :
    cur.Perm orig := by
  induction h with
  | last orig cur _ hs => exact hs.1
  | cons o1 c1 orig cur _ hs _ ih => exact List.Perm.append hs.1 ih

theorem Blocked.uncons (k : α → Int) (bs : Nat) (orig cur : List α) (h : Blocked k bs orig cur)
    (hlen : bs ≤ cur.length) :
    ∃ o1 c1 o c, orig = o1 ++ o ∧ cur = c1 ++ c ∧ o1.length = bs ∧ c1.length = bs ∧
      StableSorted k o1 c1 ∧ Blocked k bs o c := by
  cases h with
  | last _ _ hle hs =>
    have hl := hs.1.length_eq
    exact ⟨orig, cur, [], [], by simp, by simp, by omega, by omega, hs,
      Blocked.last [] [] (Nat.zero_le _) (StableSorted.nil k)⟩
  | cons o1 c1 o c hl hs hb =>
    exact ⟨o1, c1, o, c, rfl, rfl, hl, by rw [hs.1.length_eq]; exact hl, hs, hb⟩

theorem Blocked.stableSorted (k : α → Int) (bs : Nat) (orig cur : List α)
    (h : Blocked k bs orig cur) (hlen : cur.length ≤ bs) : StableSorted k orig cur := by
  cases h with
  | last _ _ hle hs => exact hs
  | cons o1 c1 o c hl hs hb =>
    have h1 := hs.1.length_eq
    have h2 := (Blocked.perm k bs o c hb).length_eq
    rw [List.length_append] at hlen
    have hc : c = [] := List.length_eq_zero.1 (by omega)
    have ho : o = [] := List.length_eq_zero.1 (by omega)
    rw [hc, ho, List.append_nil, List.append_nil]
    exact hs

theorem Agree.subset (less : α → α → Bool) (k : α → Int) (l1 l2 : List α)
    (h : Agree less k l2) (hs : ∀ x ∈ l1, x ∈ l2) : Agree less k l1 :=
  fun x hx y hy => h x (hs x hx) y (hs y hy)

theorem symMerge_spec_at (less : α → α → Bool) (k : α → Int) (fuel : Nat)
    (pre L R post data : List α) (a m b : Nat) (ha : a = pre.length)
    (hm : m = pre.length + L.length) (hb : b = pre.length + L.length + R.length)
    (hd : data = pre ++ L ++ R ++ post) (hL0 : L ≠ []) (hR0 : R ≠ [])
    (hfuel : L.length + R.length ≤ fuel) (hL : Desc k L) (hR : Desc k R)
    (hag : Agree less k (L ++ R)) :
    ∃ M, symMerge less fuel data a m b = pre ++ M ++ post ∧ Merged k L R M := by
  subst ha hm hb hd
  exact symMerge_spec less k fuel pre L R post hL0 hR0 hfuel hL hR hag

theorem blockLoop_spec (less : α → α → Bool) (k : α → Int) (bs n fuel : Nat) (hbs : 0 < bs) :
    ∀ (pre cur data : List α) (a b : Nat), a = pre.length → b = a + bs → data = pre ++ cur →
      n = pre.length + cur.length → cur.length < fuel → Agree less k cur →
      ∃ cur1, blockLoop less bs n fuel data a b = pre ++ cur1 ∧ Blocked k bs cur cur1 := by
  induction fuel with
  | zero => intro pre cur data a b _ _ _ _ hf; exact absurd hf (Nat.not_lt_zero _)
  | succ fuel ih =>
    intro pre cur data a b ha hb hd hn hf hag
    subst ha hb hd
    unfold blockLoop
    by_cases hc : pre.length + bs ≤ n
    · rw [if_pos hc]
      have hl : (cur.take bs).length = bs := by rw [List.length_take]; omega
      have hs := insertionLoop_stableSorted less k (cur.take bs)
        (Agree.subset less k _ _ hag (fun x h => List.mem_of_mem_take h))
      have e : insertionSort less (pre ++ cur) pre.length (pre.length + bs) =
          pre ++ insertionLoop less [] (cur.take bs) ++ cur.drop bs := by
        have := insertionSort_append less pre (cur.take bs) (cur.drop bs)
        rwa [hl, List.append_assoc pre (cur.take bs), List.take_append_drop] at this
      rw [e]
      have hl2 : (insertionLoop less [] (cur.take bs)).length = bs := by
        rw [hs.1.length_eq, hl]
      obtain ⟨rest1, hr, hb⟩ := ih (pre ++ insertionLoop less [] (cur.take bs)) (cur.drop bs) _ _ _
        (by rw [List.length_append, hl2]) rfl rfl
        (by rw [List.length_append, hl2, List.length_drop]; omega)
        (by rw [List.length_drop]; omega)
        (Agree.subset less k _ _ hag (fun x h => List.mem_of_mem_drop h))
      refine ⟨insertionLoop less [] (cur.take bs) ++ rest1, ?_, ?_⟩
      · rw [hr, List.append_assoc]
      · have := Blocked.cons (cur.take bs) _ (cur.drop bs) rest1 hl hs hb
        rwa [List.take_append_drop] at this
    · rw [if_neg hc]
      refine ⟨insertionLoop less [] cur, ?_, ?_⟩
      · have := insertionSort_append less pre cur []
        rw [List.append_nil, List.append_nil, ← hn] at this
        exact this
      · exact Blocked.last _ _ (by omega) (insertionLoop_stableSorted less k cur hag)

theorem mergePass_spec (less : α → α → Bool) (k : α → Int) (bs n fuel : Nat) (hbs : 0 < bs) :
    ∀ (pre orig cur data : List α) (a b : Nat), a = pre.length → b = a + 2 * bs →
      data = pre ++ cur → n = pre.length + cur.length → cur.length < fuel →
      Blocked k bs orig cur → Agree less k cur →
      ∃ cur1, mergePass less bs n fuel data a b = pre ++ cur1 ∧ Blocked k (2 * bs) orig cur1 := by
  induction fuel with
  | zero => intro pre orig cur data a b _ _ _ _ hf; exact absurd hf (Nat.not_lt_zero _)
  | succ fuel ih =>
    intro pre orig cur data a b ha hb hd hn hf hbl hag
    subst ha hb hd
    unfold mergePass
    by_cases hc : pre.length + 2 * bs ≤ n
    · rw [if_pos hc]
      obtain ⟨o1, c1, o, c, rfl, rfl, ho1, hc1, hs1, hbl1⟩ := Blocked.uncons k bs orig cur hbl
        (by omega)
      rw [List.length_append] at hn hf
      obtain ⟨o2, c2, o3, c3, rfl, rfl, ho2, hc2, hs2, hbl2⟩ := Blocked.uncons k bs o c hbl1
        (by omega)
      rw [List.length_append] at hn hf
      obtain ⟨M, hM, hmg⟩ := symMerge_spec_at less k (pre.length + 2 * bs - pre.length)
        pre c1 c2 c3 (pre ++ (c1 ++ (c2 ++ c3))) pre.length (pre.length + bs)
        (pre.length + 2 * bs) rfl (by omega) (by omega) (by simp only [List.append_assoc])
        (by intro e; rw [e] at hc1; simp at hc1; omega)
        (by intro e; rw [e] at hc2; simp at hc2; omega) (by omega) hs1.2.1 hs2.2.1
        (Agree.subset less k _ _ hag (fun x h => by
          simp only [List.mem_append] at h ⊢; tauto))
      rw [hM]
      have hlM : M.length = 2 * bs := by rw [hmg.1.length_eq, List.length_append]; omega
      obtain ⟨rest1, hr, hb3⟩ := ih (pre ++ M) o3 c3 _ _ _
        (by rw [List.length_append, hlM]) rfl rfl
        (by rw [List.length_append, hlM]; omega) (by omega) hbl2
        (Agree.subset less k _ _ hag (fun x h => by
          simp only [List.mem_append] at h ⊢; tauto))
      refine ⟨M ++ rest1, ?_, ?_⟩
      · rw [hr, List.append_assoc]
      · have := Blocked.cons (o1 ++ o2) M o3 rest1 (by rw [List.length_append]; omega)
          (StableSorted.of_merged k o1 o2 c1 c2 M hs1 hs2 hmg) hb3
        rwa [List.append_assoc] at this
    · rw [if_neg hc]
      by_cases hc2 : pre.length + bs < n
      · rw [if_pos hc2]
        obtain ⟨o1, c1, o, c, rfl, rfl, ho1, hc1, hs1, hbl1⟩ := Blocked.uncons k bs orig cur hbl
          (by omega)
        rw [List.length_append] at hn hf
        have hs2 := Blocked.stableSorted k bs o c hbl1 (by omega)
        obtain ⟨M, hM, hmg⟩ := symMerge_spec_at less k (n - pre.length)
          pre c1 c [] (pre ++ (c1 ++ c)) pre.length (pre.length + bs) n rfl (by omega) (by omega)
          (by simp only [List.append_assoc, List.append_nil])
          (by intro e; rw [e] at hc1; simp at hc1; omega)
          (by intro e; rw [e] at hn; simp at hn; omega) (by omega) hs1.2.1 hs2.2.1 hag
        refine ⟨M, by rw [hM, List.append_nil], ?_⟩
        have hss := StableSorted.of_merged k o1 o c1 c M hs1 hs2 hmg
        refine Blocked.last _ _ ?_ hss
        rw [← hss.1.length_eq, hmg.1.length_eq, List.length_append]; omega
      · rw [if_neg hc2]
        have hss := Blocked.stableSorted k bs orig cur hbl (by omega)
        exact ⟨cur, rfl, Blocked.last _ _ (by rw [← hss.1.length_eq]; omega) hss⟩

theorem mergeLoop_spec (less : α → α → Bool) (k : α → Int) (n fuel : Nat) :
    ∀ (bs : Nat) (orig cur : List α), 0 < bs → n = cur.length → n < bs * 2 ^ fuel →
      Blocked k bs orig cur → Agree less k cur →
      StableSorted k orig (mergeLoop less n fuel cur bs) := by
  induction fuel with
  | zero =>
    intro bs orig cur _ hn hlt hbl _
    unfold mergeLoop
    exact Blocked.stableSorted k bs orig cur hbl (by omega)
  | succ fuel ih =>
    intro bs orig cur hbs hn hlt hbl hag
    unfold mergeLoop
    by_cases hc : bs < n
    · rw [if_pos hc]
      obtain ⟨cur1, hc1, hb1⟩ := mergePass_spec less k bs n (n + 1) hbs [] orig cur cur 0
        (2 * bs) rfl (by omega) rfl (by simpa using hn) (by omega) hbl hag
      rw [hc1, List.nil_append]
      have hp : cur1.Perm cur :=
        (Blocked.perm k _ _ _ hb1).trans (Blocked.perm k _ _ _ hbl).symm
      refine ih (2 * bs) orig cur1 (by omega) (by rw [hp.length_eq]; exact hn) ?_ hb1
        (Agree.subset less k _ _ hag (fun x h => hp.mem_iff.1 h))
      rw [Nat.pow_succ] at hlt
      have e : 2 * bs * 2 ^ fuel = bs * (2 ^ fuel * 2) := by
        rw [Nat.mul_comm 2 bs, Nat.mul_assoc, Nat.mul_comm 2]
      rw [e]
      exact hlt
    · rw [if_neg hc]
      exact Blocked.stableSorted k bs orig cur hbl (by omega)

/-- Go's `stable` is a stable sort whenever `less` comes from a key on the elements of
the list. -/
theorem stable_stableSorted (less : α → α → Bool) (k : α → Int) (data : List α)
    (hag : Agree less k data) : StableSorted k data (stable less data) := by
  unfold stable
  simp only []
  obtain ⟨cur1, hc1, hb1⟩ := blockLoop_spec less k 20 data.length (data.length + 1) (by omega)
    [] data data 0 20 rfl rfl rfl (by simp) (by omega) hag
  rw [hc1, List.nil_append]
  have hp : cur1.Perm data := Blocked.perm k _ _ _ hb1
  refine mergeLoop_spec less k data.length (data.length + 1) 20 data cur1 (by omega)
    hp.length_eq.symm ?_ hb1 (Agree.subset less k _ _ hag (fun x h => hp.mem_iff.1 h))
  have h1 : data.length < 2 ^ (data.length + 1) :=
    lt_trans (Nat.lt_two_pow _) (Nat.pow_lt_pow_right (by omega) (Nat.lt_succ_self _))
  omega

/-- A slice of at most twenty elements is sorted by the insertion sort alone. -/
theorem stable_short (less : α → α → Bool) (data : List α) (h : data.length ≤ 20) :
    stable less data = insertionLoop less [] data := by
  unfold stable
  simp only []
  have hm : ∀ d : List α, mergeLoop less data.length (data.length + 1) d 20 = d := by
    intro d
    unfold mergeLoop
    rw [if_neg (by omega)]
  rw [hm]
  unfold blockLoop
  by_cases hc : 20 ≤ data.length
  · have h20 : data.length = 20 := by omega
    rw [if_pos hc]
    have e1 : insertionSort less data 0 20 = insertionLoop less [] data := by
      have := insertionSort_append less [] data []
      simp only [List.nil_append, List.append_nil, List.length_nil, Nat.zero_add, h20] at this
      exact this
    rw [e1]
    have hl : (insertionLoop less [] data).length = 20 := by
      rw [(insertionLoop_perm less [] data).length_eq]; simpa using h20
    cases hd : data.length with
    | zero => omega
    | succ m =>
      unfold blockLoop
      rw [if_neg (by omega)]
      have := insertionSort_append less (insertionLoop less [] data) [] []
      simp only [List.append_nil, List.length_nil, Nat.add_zero, hl] at this
      rw [← hd, h20, this]
      simp [insertionLoop]
  · rw [if_neg hc]
    have := insertionSort_append less [] data []
    simpa using this

end goautoneg.sort

namespace goautoneg

/-- The clause record before the type switch. -/
theorem segmentClause_eq (seg : GoString) :
    segmentClause seg =
      (parseTypes { Type_ := [], SubType := [], Q := Float64.one, Params := [] }
        (strings.Split (mediaRangeOf seg) '/')).map
        (fun a => (paramsOf seg).foldl parseParam a) := by
  unfold segmentClause parsePart mediaRangeOf paramsOf
  simp only []
  have hh := strings.Split_head (trim seg) ';'
  cases hs : strings.Split (trim seg) ';' with
  | nil => exact absurd hs (strings.Split_ne_nil _ _)
  | cons mr params =>
    rw [hs] at hh
    simp only [List.head?_cons, Option.some.injEq] at hh
    simp only [List.tail_cons, ← hh]
    cases parseTypes _ (strings.Split mr '/') <;> rfl

theorem parseTypes_isSome (accept : Accept) (mr : GoString) :
    (parseTypes accept (strings.Split mr '/')).isSome = (mr == ['*'] || mr.count '/' == 1) := by
  have hlen := strings.Split_length mr '/'
  cases hs : strings.Split mr '/' with
  | nil => exact absurd hs (strings.Split_ne_nil _ _)
  | cons t ts =>
    rw [hs] at hlen
    cases ts with
    | nil =>
      have h0 : mr.count '/' = 0 := by simpa using hlen.symm
      have hnot : '/' ∉ mr := List.count_eq_zero.1 h0
      have ht : t = mr := by
        have := strings.Split_of_not_mem mr '/' hnot
        rw [hs] at this
        simpa using this
      subst ht
      by_cases hstar : t = ['*']
      · simp [parseTypes, hstar]
      · simp [parseTypes, hstar, h0]
    | cons s ss =>
      cases ss with
      | nil =>
        have h1 : mr.count '/' = 1 := by simpa using hlen.symm
        simp [parseTypes, h1]
      | cons u us =>
        have h2 : 2 ≤ mr.count '/' := by
          simp only [List.length_cons] at hlen; omega
        have hne : mr ≠ ['*'] := by
          intro e; rw [e] at h2; simp at h2
        have hne1 : mr.count '/' ≠ 1 := by omega
        simp [parseTypes, hne, hne1]

theorem segmentClause_isSome (seg : GoString) :
    (segmentClause seg).isSome = validMediaRange seg := by
  rw [segmentClause_eq, Option.isSome_map', parseTypes_isSome]
  rfl

theorem length_filterMap_eq {α β : Type} (f : α → Option β) (l : List α) :
    (l.filterMap f).length = (l.filter (fun x => (f x).isSome)).length := by
  induction l with
  | nil => simp
  | cons x xs ih =>
    cases hx : f x <;> simp [List.filterMap_cons, List.filter_cons, hx, ih]

theorem filterMap_filter_isSome {α β : Type} (f : α → Option β) (l : List α) :
    (l.filter (fun x => (f x).isSome)).filterMap f = l.filterMap f := by
  induction l with
  | nil => simp
  | cons x xs ih =>
    cases hx : f x <;> simp [List.filterMap_cons, List.filter_cons, hx, ih]

theorem StringMap.mem_set (m : StringMap) (k v : GoString) (kv : GoString × GoString)
    (h : kv ∈ StringMap.set m k v) : kv.1 = k ∨ kv ∈ m ∨ ∃ w, (kv.1, w) ∈ m := by
  induction m with
  | nil =>
    simp only [StringMap.set, List.mem_singleton] at h
    exact Or.inl (by rw [h])
  | cons p m ih =>
    obtain ⟨k1, v1⟩ := p
    unfold StringMap.set at h
    split at h
    · next hk =>
      rcases List.mem_cons.1 h with e | e
      · exact Or.inl (by rw [e]; exact hk)
      · exact Or.inr (Or.inl (List.mem_cons_of_mem _ e))
    · rcases List.mem_cons.1 h with e | e
      · exact Or.inr (Or.inl (by rw [e]; exact List.mem_cons_self _ _))
      · rcases ih e with h1 | h1 | ⟨w, h1⟩
        · exact Or.inl h1
        · exact Or.inr (Or.inl (List.mem_cons_of_mem _ h1))
        · exact Or.inr (Or.inr ⟨w, List.mem_cons_of_mem _ h1⟩)

theorem StringMap.key_of_mem_set (m : StringMap) (k v : GoString) (kv : GoString × GoString)
    (h : kv ∈ StringMap.set m k v) : kv.1 = k ∨ ∃ kv1 ∈ m, kv1.1 = kv.1 := by
  rcases StringMap.mem_set m k v kv h with h1 | h1 | ⟨w, h1⟩
  · exact Or.inl h1
  · exact Or.inr ⟨kv, h1, rfl⟩
  · exact Or.inr ⟨_, h1, rfl⟩

theorem StringMap.get_eq_none (m : StringMap) (k : GoString) (h : ∀ kv ∈ m, kv.1 ≠ k) :
    StringMap.get m k = none := by
  induction m with
  | nil => rfl
  | cons p m ih =>
    obtain ⟨k1, v1⟩ := p
    have h1 : k1 ≠ k := h (k1, v1) (List.mem_cons_self _ _)
    have h2 : (k == k1) = false := by
      simp only [beq_eq_false_iff_ne, ne_eq]
      exact fun e => h1 e.symm
    unfold StringMap.get
    rw [List.lookup_cons, h2]
    exact ih (fun kv hkv => h kv (List.mem_cons_of_mem _ hkv))

/-- What one parameter does to a clause: nothing without `=`, else it sets `Q` or one
entry of `Params`, the key being the trimmed text before the first `=`. -/
theorem parseParam_eq (accept : Accept) (param : GoString) :
    parseParam accept param =
      if '=' ∈ param then
        if paramKey param = ['q'] then
          { accept with Q := (strconv.ParseFloat (paramValue param)).1 }
        else
          { accept with Params := accept.Params.set (paramKey param) (trim (paramValue param)) }
      else accept := by
  unfold parseParam paramKey paramValue
  by_cases h : '=' ∈ param
  · rw [strings.SplitN_two_of_mem _ _ h, if_pos h]
  · rw [strings.SplitN_two_of_not_mem _ _ h, if_neg h]

theorem parseParam_types (accept : Accept) (param : GoString) :
    (parseParam accept param).Type_ = accept.Type_ ∧
      (parseParam accept param).SubType = accept.SubType := by
  rw [parseParam_eq]
  split
  · split <;> exact ⟨rfl, rfl⟩
  · exact ⟨rfl, rfl⟩

theorem foldl_parseParam_types (params : List GoString) (accept : Accept) :
    (params.foldl parseParam accept).Type_ = accept.Type_ ∧
      (params.foldl parseParam accept).SubType = accept.SubType := by
  induction params generalizing accept with
  | nil => exact ⟨rfl, rfl⟩
  | cons p ps ih =>
    rw [List.foldl_cons]
    exact ⟨(ih _).1.trans (parseParam_types accept p).1, (ih _).2.trans (parseParam_types accept p).2⟩

theorem parseParam_no_q (accept : Accept) (param : GoString)
    (h : ∀ kv ∈ accept.Params, kv.1 ≠ ['q']) :
    ∀ kv ∈ (parseParam accept param).Params, kv.1 ≠ ['q'] := by
  rw [parseParam_eq]
  split
  · split
    · exact h
    · next hq =>
      intro kv hkv
      rcases StringMap.key_of_mem_set _ _ _ _ hkv with e | ⟨kv1, hm, e⟩
      · rw [e]; exact hq
      · rw [← e]; exact h kv1 hm
  · exact h

theorem foldl_parseParam_no_q (params : List GoString) (accept : Accept)
    (h : ∀ kv ∈ accept.Params, kv.1 ≠ ['q']) :
    ∀ kv ∈ (params.foldl parseParam accept).Params, kv.1 ≠ ['q'] := by
  induction params generalizing accept with
  | nil => exact h
  | cons p ps ih =>
    rw [List.foldl_cons]
    exact ih _ (parseParam_no_q accept p h)

theorem parseTypes_fields (accept a : Accept) (types : List GoString)
    (h : parseTypes accept types = some a) : a.Q = accept.Q ∧ a.Params = accept.Params := by
  unfold parseTypes at h
  split at h
  · split at h
    · simp only [Option.some.injEq] at h; rw [← h]; exact ⟨rfl, rfl⟩
    · exact absurd h (by simp)
  · simp only [Option.some.injEq] at h; rw [← h]; exact ⟨rfl, rfl⟩
  · exact absurd h (by simp)

/-- Every clause of the result is the clause of one of the segments. -/
theorem mem_result (header : GoString) (c : Accept)
    (h : c ∈ sort.SliceStable (clausesOf header) lessQ) :
    ∃ seg ∈ strings.Split header ',', segmentClause seg = some c := by
  have h1 : c ∈ clausesOf header := (sort.SliceStable_perm _ _).mem_iff.1 h
  unfold clausesOf at h1
  exact List.mem_filterMap.1 h1

theorem dropWhile_append_stop {p : Char → Bool} (l1 l2 : List Char) (a : Char) (ha : p a = false) :
    (l1 ++ a :: l2).dropWhile p = l1.dropWhile p ++ a :: l2 := by
  induction l1 with
  | nil => simp [List.dropWhile_cons, ha]
  | cons x xs ih =>
    by_cases hx : p x = true
    · simp [List.dropWhile_cons, hx, ih]
    · simp [List.dropWhile_cons, hx]

theorem dropWhile_head_false {p : Char → Bool} (l : List Char)
    (h : ∀ c, l.head? = some c → p c = false) : l.dropWhile p = l := by
  cases l with
  | nil => rfl
  | cons x xs => simp [List.dropWhile_cons, h x rfl]

theorem trim_eq_nil_iff (s : GoString) : trim s = [] ↔ ∀ c ∈ s, c = ' ' := by
  unfold trim strings.Trim
  rw [List.reverse_eq_nil_iff, List.dropWhile_eq_nil_iff]
  constructor
  · intro h
    have h1 : s.dropWhile (fun x => x == ' ') = [] := by
      cases hd : s.dropWhile (fun x => x == ' ') with
      | nil => rfl
      | cons y ys =>
        have hy : (y == ' ') = true := h y (by rw [hd]; simp)
        have hny := List.head_dropWhile_not (fun x => x == ' ') s (by rw [hd]; simp)
        simp only [hd, List.head_cons] at hny
        rw [hy] at hny
        exact absurd hny (by simp)
    intro c hc
    have := (List.dropWhile_eq_nil_iff.1 h1) c hc
    simpa using this
  · intro h c hc
    have hc1 : c ∈ s := (List.dropWhile_sublist _).subset (List.mem_reverse.1 hc)
    simpa using h c hc1

theorem trim_ne_nil (s : GoString) (h : ∃ c ∈ s, c ≠ ' ') : trim s ≠ [] := by
  intro e
  obtain ⟨c, hc, hne⟩ := h
  exact hne ((trim_eq_nil_iff s).1 e c hc)

theorem trim_of_no_space_ends (s : GoString) (h1 : s.head? ≠ some ' ')
    (h2 : s.getLast? ≠ some ' ') : trim s = s := by
  unfold trim strings.Trim
  rw [dropWhile_head_false s (by
    intro c hc
    simp only [beq_eq_false_iff_ne, ne_eq]
    intro e; rw [e] at hc; exact h1 hc)]
  rw [dropWhile_head_false s.reverse (by
    intro c hc
    simp only [beq_eq_false_iff_ne, ne_eq]
    intro e; rw [e, List.head?_reverse] at hc; exact h2 hc)]
  exact List.reverse_reverse s

theorem trim_append_semicolon (s p : GoString) (h1 : s.head? ≠ some ' ') :
    trim (s ++ ';' :: p) = s ++ ';' :: (p.reverse.dropWhile (fun x => x == ' ')).reverse := by
  unfold trim strings.Trim
  rw [dropWhile_head_false (s ++ ';' :: p) (by
    intro c hc
    simp only [beq_eq_false_iff_ne, ne_eq]
    intro e
    rw [e] at hc
    cases s with
    | nil => simp at hc
    | cons x xs => exact h1 (by simpa using hc))]
  rw [List.reverse_append, List.reverse_cons, List.append_assoc, List.singleton_append,
    dropWhile_append_stop _ _ _ (by decide)]
  simp

theorem parseParam_Q_of_key_ne (accept : Accept) (param : GoString)
    (h : '=' ∈ param → paramKey param ≠ ['q']) : (parseParam accept param).Q = accept.Q := by
  rw [parseParam_eq]
  split
  · next hm => rw [if_neg (h hm)]
  · rfl

theorem foldl_parseParam_Q (params : List GoString) (accept : Accept)
    (h : ∀ p ∈ params, '=' ∈ p → paramKey p ≠ ['q']) :
    (params.foldl parseParam accept).Q = accept.Q := by
  induction params generalizing accept with
  | nil => rfl
  | cons p ps ih =>
    rw [List.foldl_cons, ih _ (fun q hq => h q (List.mem_cons_of_mem _ hq))]
    exact parseParam_Q_of_key_ne accept p (h p (List.mem_cons_self _ _))

theorem segmentClause_append_param (s p : GoString) (h1 : s.head? ≠ some ' ')
    (h2 : s.getLast? ≠ some ' ') (hp1 : ';' ∉ p) (hp2 : '=' ∉ p) :
    segmentClause (s ++ ';' :: p) = segmentClause s := by
  have hsub : ∀ c, c ∈ (p.reverse.dropWhile (fun x => x == ' ')).reverse → c ∈ p := by
    intro c hc
    exact List.mem_reverse.1 ((List.dropWhile_sublist _).subset (List.mem_reverse.1 hc))
  generalize hp : (p.reverse.dropWhile (fun x => x == ' ')).reverse = p1 at hsub
  have hsplit : strings.Split (trim (s ++ ';' :: p)) ';' = strings.Split (trim s) ';' ++ [p1] := by
    rw [trim_append_semicolon s p h1, hp, strings.Split_append, trim_of_no_space_ends s h1 h2,
      strings.Split_of_not_mem p1 ';' (fun e => hp1 (hsub _ e))]
  unfold segmentClause parsePart
  simp only []
  rw [hsplit]
  cases hs : strings.Split (trim s) ';' with
  | nil => exact absurd hs (strings.Split_ne_nil _ _)
  | cons mr params =>
    simp only [List.cons_append]
    cases parseTypes _ (strings.Split mr '/') with
    | none => rfl
    | some a =>
      simp only [List.foldl_append, List.foldl_cons, List.foldl_nil]
      rw [parseParam_eq, if_neg (fun e => hp2 (hsub _ e))]

/-- Without NaN the comparison of the sort is the comparison of the keys. -/
theorem lessQ_agree (l : List Accept) (hnan : ∀ c ∈ l, c.Q.isNaN = false) :
    sort.Agree lessQ (fun c => c.Q.key) l := by
  intro x hx y hy
  unfold lessQ Float64.gt
  rw [hnan x hx, hnan y hy]
  simp

end goautoneg

/-! ## Further properties of the models -/

namespace goautoneg.sort

variable {α : Type}

theorem mem_keyFilter_self (k : α → Int) (x : α) (l : List α) (h : x ∈ l) :
    x ∈ keyFilter k (k x) l := by
  unfold keyFilter
  exact List.mem_filter.2 ⟨h, by simp⟩

theorem keyFilter_cons_self (k : α → Int) (x : α) (l : List α) (q : Int) (h : k x = q) :
    keyFilter k q (x :: l) = x :: keyFilter k q l := by
  unfold keyFilter
  rw [List.filter_cons, if_pos (by simpa using h)]

theorem keyFilter_cons_ne (k : α → Int) (x : α) (l : List α) (q : Int) (h : k x ≠ q) :
    keyFilter k q (x :: l) = keyFilter k q l := by
  unfold keyFilter
  rw [List.filter_cons, if_neg (by simpa using h)]

/-- A list in non-increasing key order is determined by the order of its elements within
each key. -/
theorem Desc.eq_of_keyFilter (k : α → Int) (c1 c2 : List α) (h1 : Desc k c1) (h2 : Desc k c2)
    (h : ∀ q, keyFilter k q c1 = keyFilter k q c2) : c1 = c2 := by
  induction c1 generalizing c2 with
  | nil =>
    cases c2 with
    | nil => rfl
    | cons y c2 =>
      have := mem_keyFilter_self k y (y :: c2) (List.mem_cons_self _ _)
      rw [← h (k y)] at this
      exact absurd this (by simp [keyFilter])
  | cons x c1 ih =>
    cases c2 with
    | nil =>
      have := mem_keyFilter_self k x (x :: c1) (List.mem_cons_self _ _)
      rw [h (k x)] at this
      exact absurd this (by simp [keyFilter])
    | cons y c2 =>
      obtain ⟨hx, hd1⟩ := List.pairwise_cons.1 h1
      obtain ⟨hy, hd2⟩ := List.pairwise_cons.1 h2
      have hxy : k x ≤ k y := by
        have := mem_keyFilter_self k x (x :: c1) (List.mem_cons_self _ _)
        rw [h (k x)] at this
        have hm : x ∈ y :: c2 := (List.mem_filter.1 this).1
        rcases List.mem_cons.1 hm with e | e
        · rw [e]
        · exact hy x e
      have hyx : k y ≤ k x := by
        have := mem_keyFilter_self k y (y :: c2) (List.mem_cons_self _ _)
        rw [← h (k y)] at this
        have hm : y ∈ x :: c1 := (List.mem_filter.1 this).1
        rcases List.mem_cons.1 hm with e | e
        · rw [e]
        · exact hx y e
      have hk : k y = k x := le_antisymm hyx hxy
      have h0 := h (k x)
      rw [keyFilter_cons_self k x c1 _ rfl, keyFilter_cons_self k y c2 _ hk] at h0
      simp only [List.cons.injEq] at h0
      rw [h0.1, ih c2 hd1 hd2 (fun q => by
        by_cases hq : k x = q
        · rw [← hq]; exact h0.2
        · have := h q
          rwa [keyFilter_cons_ne k x c1 q hq, keyFilter_cons_ne k y c2 q (hk ▸ hq)] at this)]

theorem StableSorted.eq_of_same_orig (k : α → Int) (orig c1 c2 : List α) (h1 : StableSorted k orig c1)
    (h2 : StableSorted k orig c2) : c1 = c2 :=
  Desc.eq_of_keyFilter k c1 c2 h1.2.1 h2.2.1 (fun q => (h1.2.2 q).trans (h2.2.2 q).symm)

/-- Sorting two lists first and then their concatenation gives the sort of the
concatenation, when `less` comes from a key. -/
theorem stable_append_sorted (less : α → α → Bool) (k : α → Int) (A B : List α)
    (hag : Agree less k (A ++ B)) :
    stable less (stable less A ++ stable less B) = stable less (A ++ B) := by
  have hA := stable_stableSorted less k A
    (Agree.subset less k _ _ hag (fun x h => List.mem_append_left _ h))
  have hB := stable_stableSorted less k B
    (Agree.subset less k _ _ hag (fun x h => List.mem_append_right _ h))
  have hp : (stable less A ++ stable less B).Perm (A ++ B) := List.Perm.append hA.1 hB.1
  have hS := stable_stableSorted less k (stable less A ++ stable less B)
    (Agree.subset less k _ _ hag (fun x h => hp.mem_iff.1 h))
  refine StableSorted.eq_of_same_orig k (A ++ B) _ _ ⟨hS.1.trans hp, hS.2.1, fun q => ?_⟩
    (stable_stableSorted less k (A ++ B) hag)
  rw [hS.2.2 q, keyFilter_append, keyFilter_append, hA.2.2 q, hB.2.2 q]

theorem insertionLoop_eq (less : α → α → Bool) (done todo : List α) :
    insertionLoop less done todo = (insertAll less done todo).reverse := by
  induction todo generalizing done with
  | nil => rfl
  | cons x todo ih =>
    rw [insertionLoop, ih]
    rfl

theorem insertAll_append (less : α → α → Bool) (d l1 l2 : List α) :
    insertAll less d (l1 ++ l2) = insertAll less (insertAll less d l1) l2 := by
  unfold insertAll
  exact List.foldl_append _ _ _ _

theorem insertAll_snoc (less : α → α → Bool) (d l : List α) (y : α) :
    insertAll less d (l ++ [y]) = insertLeft less y (insertAll less d l) := by
  rw [insertAll_append]
  rfl

/-- Two elements, one less than the other, can be inserted in either order. -/
theorem insertLeft_comm (less : α → α → Bool)
    (htrans : ∀ a b c, less a b = true → less b c = true → less a c = true)
    (hasym : ∀ a b, less a b = true → less b a = false)
    (x y : α) (d : List α) (hyx : less y x = true) :
    insertLeft less y (insertLeft less x d) = insertLeft less x (insertLeft less y d) := by
  have hxy : less x y = false := hasym y x hyx
  induction d with
  | nil => simp [insertLeft, hyx, hxy]
  | cons e d ih =>
    by_cases hxe : less x e = true
    · have hye : less y e = true := htrans y x e hyx hxe
      simp only [insertLeft, hxe, hye, if_true, ih]
    · by_cases hye : less y e = true
      · simp [insertLeft, hxe, hye, hyx]
      · simp [insertLeft, hxe, hye, hyx, hxy]

theorem insertAll_reverse_insertLeft (less : α → α → Bool)
    (htrans : ∀ a b c, less a b = true → less b c = true → less a c = true)
    (hasym : ∀ a b, less a b = true → less b a = false)
    (y : α) (D d : List α) :
    insertAll less d (insertLeft less y D).reverse =
      insertLeft less y (insertAll less d D.reverse) := by
  induction D with
  | nil => rfl
  | cons e D ih =>
    have e1 : insertLeft less y (e :: D) =
        if less y e = true then e :: insertLeft less y D else y :: e :: D := rfl
    rw [e1]
    by_cases hye : less y e = true
    · rw [if_pos hye, List.reverse_cons, insertAll_snoc, ih, List.reverse_cons, insertAll_snoc]
      exact (insertLeft_comm less htrans hasym e y _ hye).symm
    · rw [if_neg hye, List.reverse_cons, insertAll_snoc]

/-- Inserting the elements of a list in sorted order, or in their given order, leads to
the same state. -/
theorem insertAll_sorted (less : α → α → Bool)
    (htrans : ∀ a b c, less a b = true → less b c = true → less a c = true)
    (hasym : ∀ a b, less a b = true → less b a = false) (d B : List α) :
    insertAll less d (insertAll less [] B).reverse = insertAll less d B := by
  induction B using List.reverseRecOn with
  | nil => rfl
  | append_singleton B y ih =>
    rw [insertAll_snoc, insertAll_reverse_insertLeft less htrans hasym, ih, insertAll_snoc]

theorem insertionLoop_append_sorted (less : α → α → Bool)
    (htrans : ∀ a b c, less a b = true → less b c = true → less a c = true)
    (hasym : ∀ a b, less a b = true → less b a = false) (A B : List α) :
    insertionLoop less [] (insertionLoop less [] A ++ insertionLoop less [] B) =
      insertionLoop less [] (A ++ B) := by
  rw [insertionLoop_eq, insertionLoop_eq, insertionLoop_eq, insertionLoop_eq, insertAll_append,
    insertAll_sorted less htrans hasym, insertAll_sorted less htrans hasym, insertAll_append]

/-- For at most twenty elements, sorting two lists first and then their concatenation
gives the sort of the concatenation, for every transitive and asymmetric `less`. -/
theorem stable_append_short (less : α → α → Bool)
    (htrans : ∀ a b c, less a b = true → less b c = true → less a c = true)
    (hasym : ∀ a b, less a b = true → less b a = false) (A B : List α)
    (h : A.length + B.length ≤ 20) :
    stable less (stable less A ++ stable less B) = stable less (A ++ B) := by
  have hA := (stable_perm less A).length_eq
  have hB := (stable_perm less B).length_eq
  rw [stable_short less (stable less A ++ stable less B) (by rw [List.length_append]; omega),
    stable_short less A (by omega), stable_short less B (by omega),
    stable_short less (A ++ B) (by rw [List.length_append]; omega)]
  exact insertionLoop_append_sorted less htrans hasym A B

/-- The binary search does not depend on its fuel, once there is enough of it. -/
theorem searchLoop_fuel (p : Nat → Bool) (f1 f2 i j : Nat) (h1 : j - i ≤ f1) (h2 : j - i ≤ f2) :
    searchLoop p f1 i j = searchLoop p f2 i j := by
  induction f1 generalizing f2 i j with
  | zero =>
    cases f2 with
    | zero => rfl
    | succ f2 =>
      unfold searchLoop
      rw [if_neg (by omega)]
  | succ f1 ih =>
    cases f2 with
    | zero =>
      unfold searchLoop
      rw [if_neg (by omega)]
    | succ f2 =>
      unfold searchLoop
      by_cases hlt : i < j
      · rw [if_pos hlt, if_pos hlt]
        simp only []
        split
        · exact ih f2 _ _ (by omega) (by omega)
        · exact ih f2 _ _ (by omega) (by omega)
      · rw [if_neg hlt, if_neg hlt]

/-- `symMerge` does not depend on its fuel, once the fuel covers the range. -/
theorem symMerge_fuel (less : α → α → Bool) (f1 f2 : Nat) (data : List α) (a m b : Nat)
    (ham : a < m) (hmb : m < b) (h1 : b - a ≤ f1) (h2 : b - a ≤ f2) :
    symMerge less f1 data a m b = symMerge less f2 data a m b := by
  induction f1 generalizing f2 data a m b with
  | zero => omega
  | succ f1 ih =>
    cases f2 with
    | zero => omega
    | succ f2 =>
      have aux : ∀ (start stop mid : Nat), mid = (a + b) / 2 → ¬ m - a = 1 → ¬ b - m = 1 →
          (if mid < stop ∧ stop < b then
            symMerge less f1
              (if a < start ∧ start < mid then
                symMerge less f1 (if start < m ∧ m < stop then rotate data start m stop else data)
                  a start mid
               else if start < m ∧ m < stop then rotate data start m stop else data) mid stop b
           else if a < start ∧ start < mid then
                symMerge less f1 (if start < m ∧ m < stop then rotate data start m stop else data)
                  a start mid
               else if start < m ∧ m < stop then rotate data start m stop else data) =
          (if mid < stop ∧ stop < b then
            symMerge less f2
              (if a < start ∧ start < mid then
                symMerge less f2 (if start < m ∧ m < stop then rotate data start m stop else data)
                  a start mid
               else if start < m ∧ m < stop then rotate data start m stop else data) mid stop b
           else if a < start ∧ start < mid then
                symMerge less f2 (if start < m ∧ m < stop then rotate data start m stop else data)
                  a start mid
               else if start < m ∧ m < stop then rotate data start m stop else data) := by
        intro start stop mid hmid hn1 hn2
        have hD2 : (if a < start ∧ start < mid then
                symMerge less f1 (if start < m ∧ m < stop then rotate data start m stop else data)
                  a start mid
               else if start < m ∧ m < stop then rotate data start m stop else data) =
            (if a < start ∧ start < mid then
                symMerge less f2 (if start < m ∧ m < stop then rotate data start m stop else data)
                  a start mid
               else if start < m ∧ m < stop then rotate data start m stop else data) := by
          by_cases hc : a < start ∧ start < mid
          · rw [if_pos hc, if_pos hc]
            exact ih f2 _ _ _ _ hc.1 hc.2 (by omega) (by omega)
          · rw [if_neg hc, if_neg hc]
        rw [hD2]
        by_cases hc : mid < stop ∧ stop < b
        · rw [if_pos hc, if_pos hc]
          exact ih f2 _ _ _ _ hc.1 hc.2 (by omega) (by omega)
        · rw [if_neg hc, if_neg hc]
      unfold symMerge
      by_cases hn1 : m - a = 1
      · rw [if_pos hn1, if_pos hn1]
      · rw [if_neg hn1, if_neg hn1]
        by_cases hn2 : b - m = 1
        · rw [if_pos hn2, if_pos hn2]
        · rw [if_neg hn2, if_neg hn2]
          exact aux _ _ _ rfl hn1 hn2

/-- The loop over the blocks does not depend on its fuel, once there is enough of it. -/
theorem blockLoop_fuel (less : α → α → Bool) (bs n f1 f2 : Nat) (data : List α) (a b : Nat)
    (hbs : 0 < bs) (h1 : 1 ≤ f1 ∧ n + 2 ≤ f1 + b) (h2 : 1 ≤ f2 ∧ n + 2 ≤ f2 + b) :
    blockLoop less bs n f1 data a b = blockLoop less bs n f2 data a b := by
  induction f1 generalizing f2 data a b with
  | zero => omega
  | succ f1 ih =>
    cases f2 with
    | zero => omega
    | succ f2 =>
      unfold blockLoop
      by_cases hc : b ≤ n
      · rw [if_pos hc, if_pos hc]
        exact ih f2 _ _ _ (by omega) (by omega)
      · rw [if_neg hc, if_neg hc]

/-- A merging pass does not depend on its fuel, once there is enough of it. -/
theorem mergePass_fuel (less : α → α → Bool) (bs n f1 f2 : Nat) (data : List α) (a b : Nat)
    (hbs : 0 < bs) (h1 : 1 ≤ f1 ∧ n + 2 ≤ f1 + b) (h2 : 1 ≤ f2 ∧ n + 2 ≤ f2 + b) :
    mergePass less bs n f1 data a b = mergePass less bs n f2 data a b := by
  induction f1 generalizing f2 data a b with
  | zero => omega
  | succ f1 ih =>
    cases f2 with
    | zero => omega
    | succ f2 =>
      unfold mergePass
      by_cases hc : b ≤ n
      · rw [if_pos hc, if_pos hc]
        exact ih f2 _ _ _ (by omega) (by omega)
      · rw [if_neg hc, if_neg hc]

/-- The loop over the block sizes does not depend on its fuel, once there is enough of
it. -/
theorem mergeLoop_fuel (less : α → α → Bool) (n f1 f2 : Nat) (data : List α) (bs : Nat)
    (h1 : n ≤ bs * 2 ^ f1) (h2 : n ≤ bs * 2 ^ f2) :
    mergeLoop less n f1 data bs = mergeLoop less n f2 data bs := by
  induction f1 generalizing f2 data bs with
  | zero =>
    cases f2 with
    | zero => rfl
    | succ f2 =>
      unfold mergeLoop
      rw [if_neg (by omega)]
  | succ f1 ih =>
    have e : ∀ f, bs * 2 ^ (f + 1) = 2 * bs * 2 ^ f := by
      intro f
      rw [Nat.pow_succ, Nat.mul_comm 2 bs, Nat.mul_assoc, Nat.mul_comm 2]
    cases f2 with
    | zero =>
      unfold mergeLoop
      rw [if_neg (by omega)]
    | succ f2 =>
      unfold mergeLoop
      by_cases hc : bs < n
      · rw [if_pos hc, if_pos hc]
        exact ih f2 _ _ (by rw [← e]; exact h1) (by rw [← e]; exact h2)
      · rw [if_neg hc, if_neg hc]

end goautoneg.sort

namespace goautoneg

theorem dropWhile_append_all {p : Char → Bool} (l1 l2 : List Char) (h : ∀ c ∈ l1, p c = true) :
    (l1 ++ l2).dropWhile p = l2.dropWhile p := by
  induction l1 with
  | nil => rfl
  | cons x xs ih =>
    rw [List.cons_append, List.dropWhile_cons, if_pos (h x (List.mem_cons_self _ _))]
    exact ih (fun c hc => h c (List.mem_cons_of_mem _ hc))

theorem dropWhile_append_of_exists {p : Char → Bool} (l1 l2 : List Char)
    (h : ∃ c ∈ l1, p c = false) : (l1 ++ l2).dropWhile p = l1.dropWhile p ++ l2 := by
  induction l1 with
  | nil => obtain ⟨c, hc, _⟩ := h; exact absurd hc (List.not_mem_nil _)
  | cons x xs ih =>
    by_cases hx : p x = true
    · rw [List.cons_append, List.dropWhile_cons, if_pos hx, List.dropWhile_cons, if_pos hx]
      obtain ⟨c, hc, hpc⟩ := h
      rcases List.mem_cons.1 hc with e | hc
      · rw [e, hx] at hpc; exact absurd hpc (by simp)
      · exact ih ⟨c, hc, hpc⟩
    · rw [List.cons_append, List.dropWhile_cons, if_neg hx, List.dropWhile_cons, if_neg hx]
      rfl

/-- Trimming reaches into the two ends only: around a middle part that neither starts nor
ends with a space, the leading spaces of the left part and the trailing spaces of the
right part go. -/
theorem trim_inner (x mid y : GoString)
    (h1 : ∃ c rest, mid = c :: rest ∧ c ≠ ' ') (h2 : ∃ init l, mid = init ++ [l] ∧ l ≠ ' ') :
    trim (x ++ mid ++ y) =
      x.dropWhile (fun c => c == ' ') ++ mid ++ (y.reverse.dropWhile (fun c => c == ' ')).reverse := by
  unfold trim strings.Trim
  have e1 : (x ++ mid ++ y).dropWhile (fun c => c == ' ') =
      x.dropWhile (fun c => c == ' ') ++ mid ++ y := by
    obtain ⟨c, rest, hm, hc⟩ := h1
    rw [hm, List.append_assoc, List.cons_append, dropWhile_append_stop _ _ _ (by simpa using hc)]
    simp
  rw [e1]
  obtain ⟨init, l, hm, hl⟩ := h2
  have e2 : (x.dropWhile (fun c => c == ' ') ++ mid ++ y).reverse =
      y.reverse ++ l :: (init.reverse ++ (x.dropWhile (fun c => c == ' ')).reverse) := by
    rw [hm]; simp
  rw [e2, dropWhile_append_stop _ _ _ (by simpa using hl), hm]
  simp

theorem trim_append_spaces (x b : GoString) (hb : ∀ c ∈ b, c = ' ') : trim (x ++ b) = trim x := by
  by_cases hx : ∀ c ∈ x, c = ' '
  · rw [(trim_eq_nil_iff x).2 hx, trim_eq_nil_iff]
    intro c hc
    rcases List.mem_append.1 hc with h | h
    · exact hx c h
    · exact hb c h
  · have hx1 : ∃ c ∈ x, (fun c => c == ' ') c = false := by
      by_contra hne
      apply hx
      intro c hc
      by_contra hcne
      exact hne ⟨c, hc, by simpa using hcne⟩
    unfold trim strings.Trim
    rw [dropWhile_append_of_exists x b hx1, List.reverse_append,
      dropWhile_append_all b.reverse _ (by
        intro c hc
        simpa using hb c (List.mem_reverse.1 hc))]

theorem trim_spaces_append (a x : GoString) (ha : ∀ c ∈ a, c = ' ') : trim (a ++ x) = trim x := by
  unfold trim strings.Trim
  rw [dropWhile_append_all a x (by intro c hc; simpa using ha c hc)]

/-- A string is its leading spaces followed by the rest. -/
theorem leading_spaces (s : GoString) :
    s = s.takeWhile (fun c => c == ' ') ++ s.dropWhile (fun c => c == ' ') ∧
      ∀ c ∈ s.takeWhile (fun c => c == ' '), c = ' ' := by
  refine ⟨(List.takeWhile_append_dropWhile _ s).symm, ?_⟩
  intro c hc
  simpa using List.mem_takeWhile_imp hc

theorem trim_dropWhile (t : GoString) : trim (t.dropWhile (fun c => c == ' ')) = trim t := by
  have h := leading_spaces t
  conv_rhs => rw [h.1]
  exact (trim_spaces_append _ _ h.2).symm

theorem trim_rstrip (s : GoString) :
    trim (s.reverse.dropWhile (fun c => c == ' ')).reverse = trim s := by
  have h := leading_spaces s.reverse
  have e : s = (s.reverse.dropWhile (fun c => c == ' ')).reverse ++
      (s.reverse.takeWhile (fun c => c == ' ')).reverse := by
    rw [← List.reverse_append, ← h.1, List.reverse_reverse]
  conv_rhs => rw [e]
  exact (trim_append_spaces _ _ (fun c hc => h.2 c (List.mem_reverse.1 hc))).symm

/-- The clause of a segment, from the `;`-split of the trimmed segment. -/
theorem segmentClause_of_split (seg mr : GoString) (params : List GoString)
    (h : strings.Split (trim seg) ';' = mr :: params) :
    segmentClause seg =
      (parseTypes { Type_ := [], SubType := [], Q := Float64.one, Params := [] }
        (strings.Split mr '/')).map (fun a => params.foldl parseParam a) := by
  unfold segmentClause parsePart
  simp only []
  rw [h]
  simp only []
  cases parseTypes _ (strings.Split mr '/') <;> rfl

theorem SliceStable_short_list (l : List Accept) (h : l.length ≤ 1) :
    sort.SliceStable l lessQ = l := by
  unfold sort.SliceStable
  rw [sort.stable_short lessQ l (by omega)]
  match l, h with
  | [], _ => rfl
  | [x], _ => rfl

/-- A header without a comma is one segment: the result is the clause of that segment, if
there is one. -/
theorem ParseAccept_single (header : GoString) (h : ',' ∉ header) :
    ParseAccept header = some (segmentClause header).toList := by
  rw [ParseAccept_eq]
  unfold clausesOf
  rw [strings.Split_of_not_mem _ _ h]
  cases hc : segmentClause header with
  | none => simp [List.filterMap_cons, hc, SliceStable_short_list]
  | some a => simp [List.filterMap_cons, hc, SliceStable_short_list]

theorem not_mem_dropWhile (x : GoString) (p : Char → Bool) (c : Char) (h : c ∉ x) :
    c ∉ x.dropWhile p :=
  fun e => h ((List.dropWhile_sublist p).subset e)

theorem not_mem_rstrip (x : GoString) (p : Char → Bool) (c : Char) (h : c ∉ x) :
    c ∉ (x.reverse.dropWhile p).reverse :=
  fun e => h (List.mem_reverse.1 ((List.dropWhile_sublist p).subset (List.mem_reverse.1 e)))

theorem takeWhile_append_stop {p : Char → Bool} (l1 l2 : List Char) (a : Char)
    (h1 : ∀ c ∈ l1, p c = true) (ha : p a = false) : (l1 ++ a :: l2).takeWhile p = l1 := by
  induction l1 with
  | nil => simp [List.takeWhile_cons, ha]
  | cons x xs ih =>
    rw [List.cons_append, List.takeWhile_cons, if_pos (h1 x (List.mem_cons_self _ _)),
      ih (fun c hc => h1 c (List.mem_cons_of_mem _ hc))]

theorem dropWhile_append_stop_all {p : Char → Bool} (l1 l2 : List Char) (a : Char)
    (h1 : ∀ c ∈ l1, p c = true) (ha : p a = false) : (l1 ++ a :: l2).dropWhile p = a :: l2 := by
  rw [dropWhile_append_all l1 _ h1, List.dropWhile_cons, if_neg (by simp [ha])]

/-- The key and the value of a parameter part `k=v` whose `k` has no `=`. -/
theorem paramKey_paramValue (k v : GoString) (hk : '=' ∉ k) :
    paramKey (k ++ '=' :: v) = trim k ∧ paramValue (k ++ '=' :: v) = v := by
  have h1 : ∀ c ∈ k, (fun c => c != '=') c = true := by
    intro c hc
    simp only [bne_iff_ne, ne_eq]
    intro e; rw [e] at hc; exact hk hc
  unfold paramKey paramValue
  rw [takeWhile_append_stop k v '=' h1 (by decide),
    dropWhile_append_stop_all k v '=' h1 (by decide)]
  exact ⟨rfl, rfl⟩

theorem count_dropWhile_space (m : GoString) :
    (m.dropWhile (fun c => c == ' ')).count '/' = m.count '/' := by
  have h := leading_spaces m
  have h0 : (m.takeWhile (fun c => c == ' ')).count '/' = 0 := by
    rw [List.count_eq_zero]
    intro e
    exact absurd (h.2 _ e) (by decide)
  conv_rhs => rw [h.1, List.count_append, h0, Nat.zero_add]

/-- The result for a header made of one valid media range and one parameter `k=v`. -/
theorem ParseAccept_one_param (m k v : GoString)
    (hm : ',' ∉ m ∧ ';' ∉ m ∧ (m = ['*'] ∨ m.count '/' = 1))
    (hk : ',' ∉ k ∧ ';' ∉ k ∧ '=' ∉ k) (hv : ',' ∉ v ∧ ';' ∉ v) :
    ∃ a, parseTypes { Type_ := [], SubType := [], Q := Float64.one, Params := [] }
          (strings.Split (m.dropWhile (fun c => c == ' ')) '/') = some a ∧
      a.Q = Float64.one ∧ a.Params = [] ∧
      ParseAccept (m ++ ';' :: (k ++ '=' :: v)) =
        some [parseParam a (k ++ '=' :: (v.reverse.dropWhile (fun c => c == ' ')).reverse)] := by
  have hc : ',' ∉ m ++ ';' :: (k ++ '=' :: v) := by
    intro e
    simp only [List.mem_append, List.mem_cons] at e
    rcases e with e | e | e | e | e
    · exact hm.1 e
    · exact absurd e (by decide)
    · exact hk.1 e
    · exact absurd e (by decide)
    · exact hv.1 e
  have htrim : trim (m ++ ';' :: (k ++ '=' :: v)) =
      m.dropWhile (fun c => c == ' ') ++
        ';' :: (k ++ '=' :: (v.reverse.dropWhile (fun c => c == ' ')).reverse) := by
    have := trim_inner m (';' :: (k ++ ['='])) v ⟨';', k ++ ['='], rfl, by decide⟩
      ⟨';' :: k, '=', by simp, by decide⟩
    simpa using this
  have hsplit : strings.Split (trim (m ++ ';' :: (k ++ '=' :: v))) ';' =
      [m.dropWhile (fun c => c == ' '),
        k ++ '=' :: (v.reverse.dropWhile (fun c => c == ' ')).reverse] := by
    rw [htrim, strings.Split_append,
      strings.Split_of_not_mem _ _ (not_mem_dropWhile m _ _ hm.2.1),
      strings.Split_of_not_mem _ ';' (by
        intro e
        simp only [List.mem_append, List.mem_cons] at e
        rcases e with e | e | e
        · exact hk.2.1 e
        · exact absurd e (by decide)
        · exact not_mem_rstrip v _ _ hv.2 e)]
    rfl
  have hsome : (parseTypes { Type_ := [], SubType := [], Q := Float64.one, Params := [] }
      (strings.Split (m.dropWhile (fun c => c == ' ')) '/')).isSome = true := by
    rw [parseTypes_isSome, count_dropWhile_space]
    rcases hm.2.2 with e | e
    · rw [e]; decide
    · rw [e]; simp
  obtain ⟨a, ha⟩ := Option.isSome_iff_exists.1 hsome
  have hf := parseTypes_fields _ _ _ ha
  refine ⟨a, ha, hf.1, hf.2, ?_⟩
  rw [ParseAccept_single _ hc, segmentClause_of_split _ _ _ hsplit, ha]
  rfl

theorem StringMap.get_set_self (m : StringMap) (k v : GoString) :
    StringMap.get (StringMap.set m k v) k = some v := by
  induction m with
  | nil => simp [StringMap.get, StringMap.set, List.lookup]
  | cons p m ih =>
    obtain ⟨k1, v1⟩ := p
    unfold StringMap.set
    by_cases h : k1 = k
    · rw [if_pos h]
      simp [StringMap.get, List.lookup, h]
    · rw [if_neg h]
      have h2 : (k == k1) = false := by
        simp only [beq_eq_false_iff_ne, ne_eq]
        exact fun e => h e.symm
      unfold StringMap.get at ih ⊢
      rw [List.lookup_cons, h2]
      exact ih

theorem StringMap.get_set_ne (m : StringMap) (k v k2 : GoString) (h : k2 ≠ k) :
    StringMap.get (StringMap.set m k v) k2 = StringMap.get m k2 := by
  induction m with
  | nil =>
    have h2 : (k2 == k) = false := by simpa using h
    simp [StringMap.get, StringMap.set, List.lookup, h2]
  | cons p m ih =>
    obtain ⟨k1, v1⟩ := p
    unfold StringMap.set
    by_cases h1 : k1 = k
    · rw [if_pos h1]
      subst h1
      have h2 : (k2 == k1) = false := by simpa using h
      unfold StringMap.get
      rw [List.lookup_cons, h2, List.lookup_cons, h2]
    · rw [if_neg h1]
      unfold StringMap.get at ih ⊢
      rw [List.lookup_cons, List.lookup_cons, ih]

/-- A parameter with another key leaves the entry of the key `key` as it is. -/
theorem parseParam_get_of_key_ne (accept : Accept) (param key : GoString)
    (h : '=' ∈ param → paramKey param ≠ key) :
    (parseParam accept param).Params.get key = accept.Params.get key := by
  rw [parseParam_eq]
  split
  · next hm =>
    split
    · rfl
    · exact StringMap.get_set_ne _ _ _ _ (fun e => h hm e.symm)
  · rfl

theorem foldl_parseParam_get (params : List GoString) (accept : Accept) (key : GoString)
    (h : ∀ p ∈ params, '=' ∈ p → paramKey p ≠ key) :
    (params.foldl parseParam accept).Params.get key = accept.Params.get key := by
  induction params generalizing accept with
  | nil => rfl
  | cons p ps ih =>
    rw [List.foldl_cons, ih _ (fun q hq => h q (List.mem_cons_of_mem _ hq))]
    exact parseParam_get_of_key_ne accept p key (h p (List.mem_cons_self _ _))

theorem lessQ_trans (a b c : Accept) (h1 : lessQ a b = true) (h2 : lessQ b c = true) :
    lessQ a c = true := by
  unfold lessQ Float64.gt at *
  simp only [Bool.and_eq_true, Bool.not_eq_true', decide_eq_true_eq] at *
  exact ⟨⟨h1.1.1, h2.1.2⟩, by omega⟩

theorem lessQ_asymm (a b : Accept) (h1 : lessQ a b = true) : lessQ b a = false := by
  unfold lessQ Float64.gt at *
  simp only [Bool.and_eq_true, Bool.not_eq_true', decide_eq_true_eq] at h1
  simp only [Bool.and_eq_false_imp, Bool.and_eq_true, Bool.not_eq_true',
    decide_eq_false_iff_not, not_lt]
  intro _
  omega

theorem clausesOf_append (a b : GoString) :
    clausesOf (a ++ ',' :: b) = clausesOf a ++ clausesOf b := by
  unfold clausesOf
  rw [strings.Split_append, List.filterMap_append]

theorem Split_piece_not_mem (s : GoString) (sep : Char) :
    ∀ p ∈ strings.Split s sep, sep ∉ p := by
  induction s with
  | nil => simp [strings.Split]
  | cons c cs ih =>
    by_cases h : c = sep
    · subst h
      rw [strings.Split_cons_sep]
      intro p hp
      rcases List.mem_cons.1 hp with e | e
      · rw [e]; simp
      · exact ih p e
    · obtain ⟨q, qs, h1, h2⟩ := strings.Split_cons_ne c cs sep h
      rw [h2]
      rw [h1] at ih
      intro p hp
      rcases List.mem_cons.1 hp with e | e
      · rw [e]
        intro hm
        rcases List.mem_cons.1 hm with e1 | e1
        · exact h e1.symm
        · exact ih q (List.mem_cons_self _ _) e1
      · exact ih p (List.mem_cons_of_mem _ e)

theorem perSegment_eq (header : GoString) : perSegment header = clausesOf header := by
  unfold perSegment clausesOf
  have h := Split_piece_not_mem header ','
  generalize strings.Split header ',' = segs at h
  induction segs with
  | nil => rfl
  | cons seg segs ih =>
    rw [List.map_cons, List.flatten_cons, ih (fun p hp => h p (List.mem_cons_of_mem _ hp)),
      ParseAccept_single seg (h seg (List.mem_cons_self _ _)), List.filterMap_cons]
    cases segmentClause seg <;> rfl

end goautoneg

/-! ## The claims -/

namespace goautoneg

/-- C1, counterexample. In the result for `text/html;q=NaN, text/plain` the first clause
has `Q = NaN` and the second `Q = 1.0`, and `NaN >= 1.0` is false. -/
theorem C1_counterexample :
    ∃ r, ParseAccept "text/html;q=NaN, text/plain".toList = some r ∧
      r = [⟨"text".toList, "html".toList, Float64.nan, []⟩,
           ⟨"text".toList, "plain".toList, Float64.one, []⟩] ∧
      ¬ r.Chain' (fun x y => Float64.ge x.Q y.Q = true) :=
  ⟨[⟨"text".toList, "html".toList, Float64.nan, []⟩,
    ⟨"text".toList, "plain".toList, Float64.one, []⟩], by decide!, rfl,
    by rw [List.chain'_pair]; decide⟩

/-- C1, as amended. For every header none of whose clauses has a NaN quality, the list
returned by `ParseAccept` is sorted by non-increasing `Q`: each clause has a `Q` greater
than or equal to that of the next one, and of every later one. -/
theorem C1_sorted_by_quality (header : GoString)
    (hnan : ∀ c ∈ clausesOf header, c.Q.isNaN = false) :
    ∃ r, ParseAccept header = some r ∧
      r.Chain' (fun x y => Float64.ge x.Q y.Q = true) ∧
      r.Pairwise (fun x y => Float64.ge x.Q y.Q = true) := by
  refine ⟨_, ParseAccept_eq header, ?_⟩
  have hs := sort.stable_stableSorted lessQ (fun c => c.Q.key) (clausesOf header)
    (lessQ_agree _ hnan)
  have hp : (sort.SliceStable (clausesOf header) lessQ).Pairwise
      (fun x y => Float64.ge x.Q y.Q = true) := by
    refine List.Pairwise.imp_of_mem ?_ hs.2.1
    intro x y hx hy hxy
    unfold Float64.ge
    rw [hnan x (hs.1.mem_iff.1 hx), hnan y (hs.1.mem_iff.1 hy)]
    simpa using hxy
  exact ⟨List.Pairwise.chain' hp, hp⟩

/-- C1, as amended, at the header of the test `rfc2616 elaborate`: the qualities come out
as 1.0, 1.0, 0.8, 0.5. -/
theorem C1_sorted_by_quality_witness :
    (∀ c ∈ clausesOf "text/plain; q=0.5, text/html, text/x-dvi; q=0.8, text/x-c".toList,
      c.Q.isNaN = false) ∧
    (ParseAccept "text/plain; q=0.5, text/html, text/x-dvi; q=0.8, text/x-c".toList).map
      (fun r => r.map (fun c => c.Q)) =
      some [Float64.one, Float64.one, ⟨false, 1022, 2702159776422298⟩, ⟨false, 1022, 0⟩] ∧
    ∃ r, ParseAccept "text/plain; q=0.5, text/html, text/x-dvi; q=0.8, text/x-c".toList = some r ∧
      r.Chain' (fun x y => Float64.ge x.Q y.Q = true) ∧
      r.Pairwise (fun x y => Float64.ge x.Q y.Q = true) :=
  ⟨by decide!, by decide!,
    C1_sorted_by_quality "text/plain; q=0.5, text/html, text/x-dvi; q=0.8, text/x-c".toList
      (by decide!)⟩

/-- C2, counterexample. In a header of twenty-one clauses with one `q=NaN`, the two
clauses with `Q = 1.0` come out in the opposite order: `x/a` is before `x/b` in the
input and after it in the result. -/
theorem C2_counterexample :
    (clausesOf tieHeader).filter (fun c => Float64.eq c.Q Float64.one) =
      [⟨"x".toList, "a".toList, Float64.one, []⟩, ⟨"x".toList, "b".toList, Float64.one, []⟩] ∧
    (ParseAccept tieHeader).map (fun r => r.filter (fun c => Float64.eq c.Q Float64.one)) =
      some [⟨"x".toList, "b".toList, Float64.one, []⟩, ⟨"x".toList, "a".toList, Float64.one, []⟩] :=
  ⟨by decide!, by decide!⟩

/-- C2, as amended. Ties keep input order whenever no clause has a NaN quality, or the
header has at most twenty clauses: for every quality value `q`, the clauses of the result
with `Q == q` are, in the same order, the clauses of the pre-sort list with `Q == q`. -/
theorem C2_ties_keep_input_order (header : GoString)
    (h : (∀ c ∈ clausesOf header, c.Q.isNaN = false) ∨ (clausesOf header).length ≤ 20) :
    ∃ r, ParseAccept header = some r ∧
      ∀ q : Float64, r.filter (fun c => Float64.eq c.Q q) =
        (clausesOf header).filter (fun c => Float64.eq c.Q q) := by
  refine ⟨_, ParseAccept_eq header, ?_⟩
  intro q
  rcases h with hnan | hshort
  · have hs := sort.stable_stableSorted lessQ (fun c => c.Q.key) (clausesOf header)
      (lessQ_agree _ hnan)
    have hf := hs.2.2 q.key
    unfold sort.keyFilter at hf
    have e1 : ∀ l : List Accept, (∀ c ∈ l, c.Q.isNaN = false) →
        l.filter (fun c => Float64.eq c.Q q) =
          if q.isNaN then [] else l.filter (fun c => decide (c.Q.key = q.key)) := by
      intro l hl
      cases hq : q.isNaN with
      | true =>
        rw [if_pos rfl, List.filter_eq_nil_iff]
        intro c _
        simp [Float64.eq, hq]
      | false =>
        rw [if_neg (by simp)]
        refine List.filter_congr ?_
        intro c hc
        simp [Float64.eq, hq, hl c hc]
    show List.filter (fun c => Float64.eq c.Q q) (sort.stable lessQ (clausesOf header)) = _
    rw [e1 _ hnan, e1 _ (fun c hc => hnan c (hs.1.mem_iff.1 hc))]
    split
    · rfl
    · exact hf
  · unfold sort.SliceStable
    rw [sort.stable_short lessQ _ hshort, sort.insertionLoop_filter lessQ _ [] (clausesOf header)]
    · simp
    · intro x _ y _ hl hxy
      unfold lessQ Float64.gt at hl
      unfold Float64.eq at hxy
      simp only [Bool.and_eq_true, Bool.not_eq_true', decide_eq_true_eq] at hl hxy
      omega

/-- C2, as amended, at the header of the test `rfc2616 elaborate`: text/html stays before
text/x-c. -/
theorem C2_ties_keep_input_order_witness :
    (∀ c ∈ clausesOf "text/plain; q=0.5, text/html, text/x-dvi; q=0.8, text/x-c".toList,
      c.Q.isNaN = false) ∧
    (ParseAccept "text/plain; q=0.5, text/html, text/x-dvi; q=0.8, text/x-c".toList).map
      (fun r => r.map (fun c => c.SubType)) =
      some ["html".toList, "x-c".toList, "x-dvi".toList, "plain".toList] ∧
    ∃ r, ParseAccept "text/plain; q=0.5, text/html, text/x-dvi; q=0.8, text/x-c".toList = some r ∧
      ∀ q : Float64, r.filter (fun c => Float64.eq c.Q q) =
        (clausesOf "text/plain; q=0.5, text/html, text/x-dvi; q=0.8, text/x-c".toList).filter
          (fun c => Float64.eq c.Q q) :=
  ⟨by decide!, by decide!,
    C2_ties_keep_input_order "text/plain; q=0.5, text/html, text/x-dvi; q=0.8, text/x-c".toList
      (Or.inl (by decide!))⟩

/-- C3. A malformed media range drops exactly its own segment: `ParseAccept` returns as
many clauses as there are comma-separated segments whose media range is exactly `*` or
has exactly one `/`; every other segment gives no clause, and parsing only the
well-shaped segments collects the same clauses. -/
theorem C3_malformed_segment_dropped (header : GoString) :
    ∃ r, ParseAccept header = some r ∧
      r.length = ((strings.Split header ',').filter validMediaRange).length ∧
      (∀ seg ∈ strings.Split header ',', validMediaRange seg = false →
        parsePart seg = some none) ∧
      parseParts ((strings.Split header ',').filter validMediaRange) [] =
        parseParts (strings.Split header ',') [] := by
  have hv : (fun x => (segmentClause x).isSome) = validMediaRange := by
    funext x; exact segmentClause_isSome x
  refine ⟨_, ParseAccept_eq header, ?_, ?_, ?_⟩
  · rw [(sort.SliceStable_perm _ _).length_eq, clausesOf, length_filterMap_eq, hv]
  · intro seg _ hseg
    rw [parsePart_eq]
    rw [← segmentClause_isSome] at hseg
    cases h : segmentClause seg with
    | none => rfl
    | some a => simp [h] at hseg
  · rw [parseParts_eq, parseParts_eq, ← hv, filterMap_filter_isSome]

/-- C3, at the header of the test `broken`: the segment `text/html/and/other` is dropped
and only text/plain is returned. -/
theorem C3_malformed_segment_dropped_witness :
    ParseAccept "text/html/and/other, text/plain".toList =
      some [⟨"text".toList, "plain".toList, Float64.one, []⟩] ∧
    ∃ r, ParseAccept "text/html/and/other, text/plain".toList = some r ∧
      r.length =
        ((strings.Split "text/html/and/other, text/plain".toList ',').filter
          validMediaRange).length ∧
      (∀ seg ∈ strings.Split "text/html/and/other, text/plain".toList ',',
        validMediaRange seg = false → parsePart seg = some none) ∧
      parseParts ((strings.Split "text/html/and/other, text/plain".toList ',').filter
          validMediaRange) [] =
        parseParts (strings.Split "text/html/and/other, text/plain".toList ',') [] :=
  ⟨by decide!, C3_malformed_segment_dropped "text/html/and/other, text/plain".toList⟩

/-- C4, counterexample. The header `/` gives one clause whose `Type` and `SubType` are
both empty. -/
theorem C4_counterexample :
    ∃ r, ParseAccept "/".toList = some r ∧ r = [⟨[], [], Float64.one, []⟩] ∧
      ¬ ∀ c ∈ r, c.Type_ ≠ [] ∧ c.SubType ≠ [] :=
  ⟨[⟨[], [], Float64.one, []⟩], by decide!, rfl, by decide⟩

/-- C4, as amended. When each media range with exactly one `/` in the header has a
character other than a space on each side of the `/`, every clause in the result of
`ParseAccept` has a non-empty `Type` and a non-empty `SubType`. -/
theorem C4_types_nonempty (header : GoString)
    (h : ∀ seg ∈ strings.Split header ',', (mediaRangeOf seg).count '/' = 1 →
      ∀ piece ∈ strings.Split (mediaRangeOf seg) '/', ∃ c ∈ piece, c ≠ ' ') :
    ∃ r, ParseAccept header = some r ∧ ∀ c ∈ r, c.Type_ ≠ [] ∧ c.SubType ≠ [] := by
  refine ⟨_, ParseAccept_eq header, ?_⟩
  intro c hc
  obtain ⟨seg, hmem, hseg⟩ := mem_result header c hc
  rw [segmentClause_eq] at hseg
  obtain ⟨a, ha, hfold⟩ := Option.map_eq_some'.1 hseg
  have hty := foldl_parseParam_types (paramsOf seg) a
  rw [hfold] at hty
  rw [hty.1, hty.2]
  unfold parseTypes at ha
  split at ha
  · split at ha
    · simp only [Option.some.injEq] at ha; rw [← ha]; simp
    · exact absurd ha (by simp)
  · next t s hts =>
    simp only [Option.some.injEq] at ha
    rw [← ha]
    have hlen := strings.Split_length (mediaRangeOf seg) '/'
    rw [hts] at hlen
    have hcount : (mediaRangeOf seg).count '/' = 1 := by simpa using hlen.symm
    have hp := h seg hmem hcount
    rw [hts] at hp
    exact ⟨trim_ne_nil t (hp t (by simp)), trim_ne_nil s (hp s (by simp))⟩
  · exact absurd ha (by simp)

/-- C4, as amended, at the header of the test `rfc2616 simple`. -/
theorem C4_types_nonempty_witness :
    (∀ seg ∈ strings.Split "audio/*; q=0.2, audio/basic".toList ',',
      (mediaRangeOf seg).count '/' = 1 →
      ∀ piece ∈ strings.Split (mediaRangeOf seg) '/', ∃ c ∈ piece, c ≠ ' ') ∧
    ∃ r, ParseAccept "audio/*; q=0.2, audio/basic".toList = some r ∧
      ∀ c ∈ r, c.Type_ ≠ [] ∧ c.SubType ≠ [] :=
  ⟨by decide, C4_types_nonempty "audio/*; q=0.2, audio/basic".toList (by decide)⟩

/-- C5. A parameter part without `=` is ignored and the clause is retained: for a
single-clause header `s` without leading or trailing space and a part `p` without `,`,
`;` and `=`, parsing `s;p` gives the same result as parsing `s`; and
`text/plain;q=0.3;doggo` gives exactly the clause text/plain with `Q` 0.3 and no
parameter. -/
theorem C5_param_without_delimiter_ignored :
    (∀ s p : GoString, ',' ∉ s → s.head? ≠ some ' ' → s.getLast? ≠ some ' ' →
      ',' ∉ p → ';' ∉ p → '=' ∉ p → ParseAccept (s ++ ';' :: p) = ParseAccept s) ∧
    ParseAccept "text/plain;q=0.3;doggo".toList =
      some [⟨"text".toList, "plain".toList, ⟨false, 1021, 900719925474099⟩, []⟩] := by
  refine ⟨?_, by decide!⟩
  intro s p hs h1 h2 hp0 hp1 hp2
  have hc : ',' ∉ s ++ ';' :: p := by
    intro e
    rcases List.mem_append.1 e with e | e
    · exact hs e
    · rcases List.mem_cons.1 e with e | e
      · exact absurd e (by decide)
      · exact hp0 e
  rw [ParseAccept_eq, ParseAccept_eq]
  unfold clausesOf
  rw [strings.Split_of_not_mem _ _ hc, strings.Split_of_not_mem _ _ hs]
  simp only [List.filterMap_cons, List.filterMap_nil]
  rw [segmentClause_append_param s p h1 h2 hp1 hp2]

/-- C5, at the header `text/plain;q=0.3` and the part `doggo`. -/
theorem C5_param_without_delimiter_ignored_witness :
    ParseAccept ("text/plain;q=0.3".toList ++ ';' :: "doggo".toList) =
      ParseAccept "text/plain;q=0.3".toList :=
  C5_param_without_delimiter_ignored.1 "text/plain;q=0.3".toList "doggo".toList
    (by decide) (by decide) (by decide) (by decide) (by decide) (by decide)

/-- C6, evaluated at its own example. `text/plain;q=0.3;doggo` is not parsed to the empty
list: the clause text/plain is kept, with `Q` 0.3 and no parameter. -/
theorem C6_clause_kept_at_broken_parameter :
    ParseAccept "text/plain;q=0.3;doggo".toList ≠ some [] ∧
    ParseAccept "text/plain;q=0.3;doggo".toList =
      some [⟨"text".toList, "plain".toList, ⟨false, 1021, 900719925474099⟩, []⟩] :=
  ⟨by decide!, by decide!⟩

/-- C7, evaluated at an out-of-range `q`. For `1e999` the float parser reports an error
(`ErrRange`) and returns `+Inf`, so the clause gets `Q = +Inf`, not `0`, and is ranked
before a clause with the default `Q = 1.0`; a syntax error such as `foo` does give
`Q = 0`. -/
theorem C7_range_error_gives_infinity :
    strconv.ParseFloat "1e999".toList = (Float64.inf false, some strconv.NumError.ErrRange) ∧
    strconv.ParseFloat "foo".toList = (Float64.zero, some strconv.NumError.ErrSyntax) ∧
    ParseAccept "text/plain;q=foo".toList =
      some [⟨"text".toList, "plain".toList, Float64.zero, []⟩] ∧
    ParseAccept "text/plain;q=1e999".toList =
      some [⟨"text".toList, "plain".toList, Float64.inf false, []⟩] ∧
    ParseAccept "text/html, text/plain;q=1e999".toList =
      some [⟨"text".toList, "plain".toList, Float64.inf false, []⟩,
            ⟨"text".toList, "html".toList, Float64.one, []⟩] :=
  ⟨by decide!, by decide!, by decide!, by decide!, by decide!⟩

/-- C8, evaluated at a `q` value written with a space. The value of `q` is handed to the
float parser as written: `q= 0.5` and `q=0.5 ` do not parse and give `Q = 0`, where
`q=0.5` gives `Q = 0.5`. -/
theorem C8_q_value_not_trimmed :
    ParseAccept "text/plain;q=0.5;x=y".toList =
      some [⟨"text".toList, "plain".toList, ⟨false, 1022, 0⟩, [("x".toList, "y".toList)]⟩] ∧
    ParseAccept "text/plain;q= 0.5;x=y".toList =
      some [⟨"text".toList, "plain".toList, Float64.zero, [("x".toList, "y".toList)]⟩] ∧
    ParseAccept "text/plain;q=0.5 ;x=y".toList =
      some [⟨"text".toList, "plain".toList, Float64.zero, [("x".toList, "y".toList)]⟩] ∧
    ParseAccept "text/plain;q= 0.5".toList =
      some [⟨"text".toList, "plain".toList, Float64.zero, []⟩] ∧
    ParseAccept "text/plain;q=0.5 ;level=1".toList =
      some [⟨"text".toList, "plain".toList, Float64.zero, [("level".toList, "1".toList)]⟩] :=
  ⟨by decide!, by decide!, by decide!, by decide!, by decide!⟩

/-- C9. `Q` defaults to 1.0: a segment with a well-shaped media range, none of whose
parameter parts has the space-trimmed key `q` before its first `=`, gives a clause with
`Q = 1.0`, and that clause is in the result of `ParseAccept`. -/
theorem C9_default_quality (header seg : GoString) (hseg : seg ∈ strings.Split header ',')
    (hvalid : validMediaRange seg = true)
    (hq : ∀ p ∈ paramsOf seg, '=' ∈ p → paramKey p ≠ ['q']) :
    ∃ c r, segmentClause seg = some c ∧ c.Q = Float64.one ∧
      ParseAccept header = some r ∧ c ∈ r := by
  rw [← segmentClause_isSome] at hvalid
  obtain ⟨c, hc⟩ := Option.isSome_iff_exists.1 hvalid
  refine ⟨c, _, hc, ?_, ParseAccept_eq header, ?_⟩
  · rw [segmentClause_eq] at hc
    obtain ⟨a, ha, hfold⟩ := Option.map_eq_some'.1 hc
    rw [← hfold, foldl_parseParam_Q _ _ hq, (parseTypes_fields _ _ _ ha).1]
  · refine (sort.SliceStable_perm _ _).mem_iff.2 ?_
    unfold clausesOf
    exact List.mem_filterMap.2 ⟨seg, hseg, hc⟩

/-- C9, at the header `text/html;q=0.7, text/html;level=1`: the clause with `level=1` has
no `q`, gets `Q = 1.0` and comes out before the clause with `q=0.7`. -/
theorem C9_default_quality_witness :
    " text/html;level=1".toList ∈ strings.Split "text/html;q=0.7, text/html;level=1".toList ',' ∧
    validMediaRange " text/html;level=1".toList = true ∧
    (∀ p ∈ paramsOf " text/html;level=1".toList, '=' ∈ p → paramKey p ≠ ['q']) ∧
    ParseAccept "text/html;q=0.7, text/html;level=1".toList =
      some [⟨"text".toList, "html".toList, Float64.one, [("level".toList, "1".toList)]⟩,
            ⟨"text".toList, "html".toList, ⟨false, 1022, 1801439850948198⟩, []⟩] ∧
    ∃ c r, segmentClause " text/html;level=1".toList = some c ∧ c.Q = Float64.one ∧
      ParseAccept "text/html;q=0.7, text/html;level=1".toList = some r ∧ c ∈ r :=
  ⟨by decide, by decide, by decide, by decide!,
    C9_default_quality "text/html;q=0.7, text/html;level=1".toList " text/html;level=1".toList
      (by decide) (by decide) (by decide)⟩

/-- C10. No clause returned by `ParseAccept` has the key `q` in its `Params` map. -/
theorem C10_q_never_stored (header : GoString) :
    ∃ r, ParseAccept header = some r ∧
      ∀ c ∈ r, c.Params.get ['q'] = none ∧ ∀ kv ∈ c.Params, kv.1 ≠ ['q'] := by
  refine ⟨_, ParseAccept_eq header, ?_⟩
  intro c hc
  obtain ⟨seg, _, hseg⟩ := mem_result header c hc
  rw [segmentClause_eq] at hseg
  obtain ⟨a, ha, hfold⟩ := Option.map_eq_some'.1 hseg
  have hp : ∀ kv ∈ a.Params, kv.1 ≠ ['q'] := by
    rw [(parseTypes_fields _ _ _ ha).2]
    intro kv hkv
    exact absurd hkv (List.not_mem_nil _)
  have hq := foldl_parseParam_no_q (paramsOf seg) a hp
  rw [hfold] at hq
  exact ⟨StringMap.get_eq_none _ _ hq, hq⟩

/-- C10, at the header `text/html;level=2;q=0.4`: `q` sets `Q` to 0.4 and `Params` holds
`level` only. -/
theorem C10_q_never_stored_witness :
    ParseAccept "text/html;level=2;q=0.4".toList =
      some [⟨"text".toList, "html".toList, ⟨false, 1021, 2702159776422298⟩,
        [("level".toList, "2".toList)]⟩] ∧
    ∃ r, ParseAccept "text/html;level=2;q=0.4".toList = some r ∧
      ∀ c ∈ r, c.Params.get ['q'] = none ∧ ∀ kv ∈ c.Params, kv.1 ≠ ['q'] :=
  ⟨by decide!, C10_q_never_stored "text/html;level=2;q=0.4".toList⟩

end goautoneg

namespace goautoneg

/-- C11. Two-token media range: for `t` and `s` without `,`, `;` and `/`, the header
`t/s` gives exactly one clause, with `Type` the space-trimmed `t`, `SubType` the
space-trimmed `s`, `Q = 1.0` and no parameter. -/
theorem C11_two_token_media_range (t s : GoString)
    (ht : ',' ∉ t ∧ ';' ∉ t ∧ '/' ∉ t) (hs : ',' ∉ s ∧ ';' ∉ s ∧ '/' ∉ s) :
    ParseAccept (t ++ '/' :: s) = some [⟨trim t, trim s, Float64.one, []⟩] := by
  have hc : ',' ∉ t ++ '/' :: s := by
    intro e
    rcases List.mem_append.1 e with e | e
    · exact ht.1 e
    · rcases List.mem_cons.1 e with e | e
      · exact absurd e (by decide)
      · exact hs.1 e
  have htrim : trim (t ++ '/' :: s) =
      t.dropWhile (fun c => c == ' ') ++ '/' :: (s.reverse.dropWhile (fun c => c == ' ')).reverse := by
    have := trim_inner t ['/'] s ⟨'/', [], rfl, by decide⟩ ⟨[], '/', rfl, by decide⟩
    simpa using this
  have hsemi : ';' ∉ trim (t ++ '/' :: s) := by
    rw [htrim]
    intro e
    rcases List.mem_append.1 e with e | e
    · exact not_mem_dropWhile t _ _ ht.2.1 e
    · rcases List.mem_cons.1 e with e | e
      · exact absurd e (by decide)
      · exact not_mem_rstrip s _ _ hs.2.1 e
  rw [ParseAccept_single _ hc,
    segmentClause_of_split _ _ [] (strings.Split_of_not_mem _ _ hsemi), htrim,
    strings.Split_append, strings.Split_of_not_mem _ _ (not_mem_dropWhile t _ _ ht.2.2),
    strings.Split_of_not_mem _ _ (not_mem_rstrip s _ _ hs.2.2)]
  simp only [List.singleton_append, parseTypes, Option.map_some', List.foldl_nil,
    Option.toList_some, trim_dropWhile, trim_rstrip]

/-- C11, at the header `text/plain`, and at ` text / plain ` with spaces around both
tokens. -/
theorem C11_two_token_media_range_witness :
    ParseAccept ("text".toList ++ '/' :: "plain".toList) =
      some [⟨trim "text".toList, trim "plain".toList, Float64.one, []⟩] ∧
    ParseAccept " text / plain ".toList =
      some [⟨"text".toList, "plain".toList, Float64.one, []⟩] :=
  ⟨C11_two_token_media_range "text".toList "plain".toList
    ⟨by decide, by decide, by decide⟩ ⟨by decide, by decide, by decide⟩, by decide!⟩

/-- C12. Bare asterisk: a header made of `*` with any number of spaces before and after
gives exactly one clause, with `Type` `*`, `SubType` `*`, `Q = 1.0` and no parameter. -/
theorem C12_bare_asterisk (a b : GoString) (ha : ∀ c ∈ a, c = ' ') (hb : ∀ c ∈ b, c = ' ') :
    ParseAccept (a ++ '*' :: b) = some [⟨['*'], ['*'], Float64.one, []⟩] := by
  have hc : ',' ∉ a ++ '*' :: b := by
    intro e
    rcases List.mem_append.1 e with e | e
    · exact absurd (ha _ e) (by decide)
    · rcases List.mem_cons.1 e with e | e
      · exact absurd e (by decide)
      · exact absurd (hb _ e) (by decide)
  have htrim : trim (a ++ '*' :: b) = ['*'] := by
    have h1 : trim (a ++ '*' :: b) = trim (['*'] ++ b) := trim_spaces_append a _ ha
    rw [h1, trim_append_spaces _ _ hb]
    decide
  rw [ParseAccept_single _ hc, segmentClause_of_split _ ['*'] [] (by rw [htrim]; decide)]
  decide

/-- C12, at the header `*` and at the header ` * `. -/
theorem C12_bare_asterisk_witness :
    ParseAccept ([] ++ '*' :: []) = some [⟨['*'], ['*'], Float64.one, []⟩] ∧
    ParseAccept ([' '] ++ '*' :: [' ', ' ']) = some [⟨['*'], ['*'], Float64.one, []⟩] :=
  ⟨C12_bare_asterisk [] [] (by decide) (by decide),
    C12_bare_asterisk [' '] [' ', ' '] (by decide) (by decide)⟩

/-- C13. Non-`q` parameters are stored trimmed and split on the first `=` only: for a
valid media range `m` (exactly `*`, or with exactly one `/`, and without `,` and `;`), a
key `k` without `,`, `;`, `=` whose trimmed form is not `q`, and a value `v` without `,`
and `;`, the header `m;k=v` gives exactly one clause, with `Params` holding the single
entry `trim k -> trim v` and with `Q = 1.0`. -/
theorem C13_parameter_stored_trimmed (m k v : GoString)
    (hm : ',' ∉ m ∧ ';' ∉ m ∧ (m = ['*'] ∨ m.count '/' = 1))
    (hk : ',' ∉ k ∧ ';' ∉ k ∧ '=' ∉ k) (hkq : trim k ≠ ['q']) (hv : ',' ∉ v ∧ ';' ∉ v) :
    ∃ c, ParseAccept (m ++ ';' :: (k ++ '=' :: v)) = some [c] ∧
      c.Params = [(trim k, trim v)] ∧ c.Params.get (trim k) = some (trim v) ∧
      c.Q = Float64.one := by
  obtain ⟨a, _, hq, hp, hr⟩ := ParseAccept_one_param m k v hm hk hv
  refine ⟨_, hr, ?_⟩
  have hkv := paramKey_paramValue k (v.reverse.dropWhile (fun c => c == ' ')).reverse hk.2.2
  rw [parseParam_eq, if_pos (by simp), hkv.1, hkv.2, if_neg hkq, hp, trim_rstrip]
  refine ⟨rfl, ?_, hq⟩
  simp [StringMap.get, StringMap.set, List.lookup]

/-- C13, at the header `text/html;level=1`, and at a value that contains `=`. -/
theorem C13_parameter_stored_trimmed_witness :
    (∃ c, ParseAccept ("text/html".toList ++ ';' :: ("level".toList ++ '=' :: "1".toList)) =
        some [c] ∧
      c.Params = [(trim "level".toList, trim "1".toList)] ∧
      c.Params.get (trim "level".toList) = some (trim "1".toList) ∧ c.Q = Float64.one) ∧
    ParseAccept "text/html;level=1".toList =
      some [⟨"text".toList, "html".toList, Float64.one, [("level".toList, "1".toList)]⟩] ∧
    ParseAccept "text/html; a = b=c ".toList =
      some [⟨"text".toList, "html".toList, Float64.one, [("a".toList, "b=c".toList)]⟩] :=
  ⟨C13_parameter_stored_trimmed "text/html".toList "level".toList "1".toList
    ⟨by decide, by decide, Or.inr (by decide)⟩ ⟨by decide, by decide, by decide⟩ (by decide)
    ⟨by decide, by decide⟩, by decide!, by decide!⟩

/-- C14. `ParseAccept` is total: for every input it returns a list and does not panic;
every turn of the loop over the segments returns, because the `;`-split of a segment, as
every split, has at least one piece, so that element 0 and the slice from index 1 exist.
The loops of the library sort, which run on fuel here, have enough of it: with more fuel
they return the same list. -/
theorem C14_total (header : GoString) :
    (∃ r, ParseAccept header = some r) ∧
    (∀ clauses, ∃ r, parseParts (strings.Split header ',') clauses = some r) ∧
    (∀ part, ∃ o, parsePart part = some o) ∧
    (∀ s sep, 0 < (strings.Split s sep).length ∧
      ∃ first rest, strings.Split s sep = first :: rest) ∧
    (∀ (data : List Accept) (k : Nat),
      sort.mergeLoop lessQ data.length (data.length + 1 + k)
        (sort.blockLoop lessQ 20 data.length (data.length + 1 + k) data 0 20) 20 =
        sort.stable lessQ data) ∧
    (∀ (data : List Accept) (bs n a k : Nat), 0 < bs →
      sort.mergePass lessQ bs n (n + 1 + k) data a (a + 2 * bs) =
        sort.mergePass lessQ bs n (n + 1) data a (a + 2 * bs)) ∧
    (∀ (data : List Accept) (a m b k : Nat), a < m → m < b →
      sort.symMerge lessQ (b - a + k) data a m b = sort.symMerge lessQ (b - a) data a m b) ∧
    (∀ (p : Nat → Bool) (i j k : Nat),
      sort.searchLoop p (j - i + k) i j = sort.searchLoop p (j - i) i j) := by
  refine ⟨⟨_, ParseAccept_eq header⟩, fun clauses => ⟨_, parseParts_eq _ clauses⟩,
    fun part => ⟨_, parsePart_eq part⟩, fun s sep => ?_, fun data k => ?_,
    fun data bs n a k hbs => ?_, fun data a m b k ham hmb => ?_, fun p i j k => ?_⟩
  · cases hs : strings.Split s sep with
    | nil => exact absurd hs (strings.Split_ne_nil s sep)
    | cons first rest => exact ⟨by simp, first, rest, rfl⟩
  · unfold sort.stable
    simp only []
    have hpow : ∀ f, data.length ≤ f → data.length ≤ 20 * 2 ^ f := by
      intro f hf
      have h1 : data.length < 2 ^ data.length := Nat.lt_two_pow _
      have h2 : 2 ^ data.length ≤ 2 ^ f := Nat.pow_le_pow_right (by omega) hf
      omega
    rw [sort.blockLoop_fuel lessQ 20 data.length (data.length + 1 + k) (data.length + 1) data 0 20
      (by omega) (by omega) (by omega)]
    exact sort.mergeLoop_fuel lessQ data.length _ _ _ 20 (hpow _ (by omega)) (hpow _ (by omega))
  · exact sort.mergePass_fuel lessQ bs n _ _ data a _ hbs (by omega) (by omega)
  · exact sort.symMerge_fuel lessQ _ _ data a m b ham hmb (by omega) (by omega)
  · exact sort.searchLoop_fuel p _ _ i j (by omega) (by omega)

/-- C14, at the header of the test `broken`. -/
theorem C14_total_witness :
    ParseAccept "text/html/and/other, text/plain".toList =
      some [⟨"text".toList, "plain".toList, Float64.one, []⟩] ∧
    ∃ r, ParseAccept "text/html/and/other, text/plain".toList = some r :=
  ⟨by decide!, (C14_total "text/html/and/other, text/plain".toList).1⟩

/-- C15. `ParseAccept("")` returns the empty list. -/
theorem C15_empty_header : ParseAccept "".toList = some [] := by
  decide

/-- C16. `trim` removes the space character only: every string is leading spaces, then
its trimmed form, then trailing spaces, and the trimmed form neither starts nor ends with
a space. A tab is kept: `text/plain<tab>` has the `SubType` `plain<tab>`, and the
parameter `<tab>q=0.5` is stored under the key `<tab>q` and leaves `Q` at 1.0. -/
theorem C16_trim_spaces_only :
    (∀ s : GoString, ∃ a b, s = a ++ trim s ++ b ∧ (∀ c ∈ a, c = ' ') ∧ (∀ c ∈ b, c = ' ') ∧
      (trim s).head? ≠ some ' ' ∧ (trim s).getLast? ≠ some ' ') ∧
    ParseAccept ("text/plain".toList ++ [Char.ofNat 9]) =
      some [⟨"text".toList, "plain".toList ++ [Char.ofNat 9], Float64.one, []⟩] ∧
    ParseAccept ("text/plain;".toList ++ Char.ofNat 9 :: "q=0.5".toList) =
      some [⟨"text".toList, "plain".toList, Float64.one,
        [(Char.ofNat 9 :: "q".toList, "0.5".toList)]⟩] := by
  refine ⟨?_, by decide!, by decide!⟩
  intro s
  have h1 := leading_spaces s
  have h2 := leading_spaces (s.dropWhile (fun c => c == ' ')).reverse
  have ht : trim s =
      ((s.dropWhile (fun c => c == ' ')).reverse.dropWhile (fun c => c == ' ')).reverse := rfl
  have e : s.dropWhile (fun c => c == ' ') = trim s ++
      ((s.dropWhile (fun c => c == ' ')).reverse.takeWhile (fun c => c == ' ')).reverse := by
    rw [ht, ← List.reverse_append, ← h2.1, List.reverse_reverse]
  refine ⟨s.takeWhile (fun c => c == ' '),
    ((s.dropWhile (fun c => c == ' ')).reverse.takeWhile (fun c => c == ' ')).reverse,
    ?_, h1.2, fun c hc => h2.2 c (List.mem_reverse.1 hc), ?_, ?_⟩
  · rw [List.append_assoc, ← e]; exact h1.1
  · intro hh
    have hne : s.dropWhile (fun c => c == ' ') ≠ [] := by
      intro e0
      rw [ht, e0] at hh
      simp at hh
    have := List.head_dropWhile_not (fun c => c == ' ') s hne
    have hhead : (s.dropWhile (fun c => c == ' ')).head? = some ' ' := by
      rw [e]
      cases hts : trim s with
      | nil => rw [hts] at hh; simp at hh
      | cons x xs => rw [hts] at hh; simpa using hh
    rw [List.head?_eq_head hne] at hhead
    simp only [Option.some.injEq] at hhead
    rw [hhead] at this
    exact absurd this (by decide)
  · intro hl
    rw [ht, List.getLast?_reverse] at hl
    have hne : (s.dropWhile (fun c => c == ' ')).reverse.dropWhile (fun c => c == ' ') ≠ [] := by
      intro e0
      rw [e0] at hl
      simp at hl
    have := List.head_dropWhile_not (fun c => c == ' ') _ hne
    rw [List.head?_eq_head hne] at hl
    simp only [Option.some.injEq] at hl
    rw [hl] at this
    exact absurd this (by decide)

/-- C17, counterexample. For the header `x/a` and a second header of twenty clauses with
one `q=NaN`, the result for the two joined by a comma has the clause with `Q` 0.9 in
second place, while the sort of the two results put together has a clause with `Q` 0.5
there. -/
theorem C17_counterexample :
    (ParseAccept ("x/a".toList ++ ',' :: mergeTail)).map
        (fun r => (r.map (fun c => c.Q)).take 2) =
      some [Float64.one, ⟨false, 1022, 3602879701896397⟩] ∧
    (sortJoined (ParseAccept "x/a".toList) (ParseAccept mergeTail)).map
        (fun r => (r.map (fun c => c.Q)).take 2) =
      some [Float64.one, ⟨false, 1022, 0⟩] ∧
    ParseAccept ("x/a".toList ++ ',' :: mergeTail) ≠
      sortJoined (ParseAccept "x/a".toList) (ParseAccept mergeTail) :=
  ⟨by decide!, by decide!, by decide!⟩

/-- C17, as amended. Parsing distributes over `,`-concatenation up to the final sort
whenever no clause of the two headers has a NaN quality, or the two headers have at most
twenty clauses together: then `ParseAccept(a,b)` is the stable descending-by-`Q` sort of
`ParseAccept(a) ++ ParseAccept(b)`. For every header the result is a permutation of the
clauses obtained by parsing each comma-separated segment alone. -/
theorem C17_distributes_over_comma :
    (∀ a b : GoString,
      ((∀ c ∈ clausesOf a ++ clausesOf b, c.Q.isNaN = false) ∨
        (clausesOf a).length + (clausesOf b).length ≤ 20) →
      ParseAccept (a ++ ',' :: b) = sortJoined (ParseAccept a) (ParseAccept b)) ∧
    (∀ header : GoString, ∃ r, ParseAccept header = some r ∧ r.Perm (perSegment header)) := by
  constructor
  · intro a b h
    rw [ParseAccept_eq, ParseAccept_eq, ParseAccept_eq, clausesOf_append]
    unfold sortJoined sort.SliceStable
    simp only [Option.some.injEq]
    rcases h with hnan | hshort
    · exact (sort.stable_append_sorted lessQ (fun c => c.Q.key) _ _ (lessQ_agree _ hnan)).symm
    · exact (sort.stable_append_short lessQ lessQ_trans lessQ_asymm _ _ hshort).symm
  · intro header
    exact ⟨_, ParseAccept_eq header, by rw [perSegment_eq]; exact sort.SliceStable_perm _ _⟩

/-- C17, as amended, at the headers `text/plain; q=0.5, text/html` and
`text/x-dvi; q=0.8, text/x-c`. -/
theorem C17_distributes_over_comma_witness :
    ((∀ c ∈ clausesOf "text/plain; q=0.5, text/html".toList ++
          clausesOf " text/x-dvi; q=0.8, text/x-c".toList, c.Q.isNaN = false) ∨
      (clausesOf "text/plain; q=0.5, text/html".toList).length +
        (clausesOf " text/x-dvi; q=0.8, text/x-c".toList).length ≤ 20) ∧
    ParseAccept ("text/plain; q=0.5, text/html".toList ++
        ',' :: " text/x-dvi; q=0.8, text/x-c".toList) =
      sortJoined (ParseAccept "text/plain; q=0.5, text/html".toList)
        (ParseAccept " text/x-dvi; q=0.8, text/x-c".toList) ∧
    (sortJoined (ParseAccept "text/plain; q=0.5, text/html".toList)
        (ParseAccept " text/x-dvi; q=0.8, text/x-c".toList)).map
        (fun r => r.map (fun c => c.SubType)) =
      some ["html".toList, "x-c".toList, "x-dvi".toList, "plain".toList] :=
  ⟨Or.inr (by decide!),
    C17_distributes_over_comma.1 "text/plain; q=0.5, text/html".toList
      " text/x-dvi; q=0.8, text/x-c".toList (Or.inr (by decide!)),
    by decide!⟩

/-- C18. Later parameters override earlier ones within a clause: when `p` is the last
parameter part of a segment with its key, the clause has the `Q` parsed from `p` if the
key is `q`, and else `Params` holds the trimmed value of `p` under that key. So
`text/plain;q=0.1;q=0.9` gives `Q` 0.9, `text/plain;q=0.9;q=foo` gives `Q` 0 and
`text/plain;a=1;a=2` gives the parameter `a -> 2`. -/
theorem C18_last_parameter_wins :
    (∀ (header seg : GoString) (ps1 : List GoString) (p : GoString) (ps2 : List GoString),
      seg ∈ strings.Split header ',' → validMediaRange seg = true →
      paramsOf seg = ps1 ++ p :: ps2 → '=' ∈ p →
      (∀ p2 ∈ ps2, '=' ∈ p2 → paramKey p2 ≠ paramKey p) →
      ∃ c r, segmentClause seg = some c ∧ ParseAccept header = some r ∧ c ∈ r ∧
        (paramKey p = ['q'] → c.Q = (strconv.ParseFloat (paramValue p)).1) ∧
        (paramKey p ≠ ['q'] → c.Params.get (paramKey p) = some (trim (paramValue p)))) ∧
    ParseAccept "text/plain;q=0.1;q=0.9".toList =
      some [⟨"text".toList, "plain".toList, ⟨false, 1022, 3602879701896397⟩, []⟩] ∧
    strconv.ParseFloat "0.9".toList = (⟨false, 1022, 3602879701896397⟩, none) ∧
    ParseAccept "text/plain;q=0.9;q=foo".toList =
      some [⟨"text".toList, "plain".toList, Float64.zero, []⟩] ∧
    ParseAccept "text/plain;a=1;a=2".toList =
      some [⟨"text".toList, "plain".toList, Float64.one, [("a".toList, "2".toList)]⟩] := by
  refine ⟨?_, by decide!, by decide!, by decide!, by decide!⟩
  intro header seg ps1 p ps2 hseg hvalid hps heq hlast
  rw [← segmentClause_isSome] at hvalid
  obtain ⟨c, hc⟩ := Option.isSome_iff_exists.1 hvalid
  have hmem : c ∈ sort.SliceStable (clausesOf header) lessQ := by
    refine (sort.SliceStable_perm _ _).mem_iff.2 ?_
    unfold clausesOf
    exact List.mem_filterMap.2 ⟨seg, hseg, hc⟩
  refine ⟨c, _, hc, ParseAccept_eq header, hmem, ?_, ?_⟩
  · intro hq
    rw [segmentClause_eq, hps] at hc
    obtain ⟨a, _, hfold⟩ := Option.map_eq_some'.1 hc
    rw [← hfold, List.foldl_append, List.foldl_cons,
      foldl_parseParam_Q ps2 _ (fun p2 h2 he => hq ▸ hlast p2 h2 he), parseParam_eq,
      if_pos heq, if_pos hq]
  · intro hq
    rw [segmentClause_eq, hps] at hc
    obtain ⟨a, _, hfold⟩ := Option.map_eq_some'.1 hc
    rw [← hfold, List.foldl_append, List.foldl_cons,
      foldl_parseParam_get ps2 _ _ hlast, parseParam_eq, if_pos heq, if_neg hq]
    exact StringMap.get_set_self _ _ _

/-- C18, at the header `text/plain;q=0.1;q=0.9`, whose last `q` is `0.9`. -/
theorem C18_last_parameter_wins_witness :
    ∃ c r, segmentClause "text/plain;q=0.1;q=0.9".toList = some c ∧
      ParseAccept "text/plain;q=0.1;q=0.9".toList = some r ∧ c ∈ r ∧
      (paramKey "q=0.9".toList = ['q'] →
        c.Q = (strconv.ParseFloat (paramValue "q=0.9".toList)).1) ∧
      (paramKey "q=0.9".toList ≠ ['q'] →
        c.Params.get (paramKey "q=0.9".toList) = some (trim (paramValue "q=0.9".toList))) :=
  C18_last_parameter_wins.1 "text/plain;q=0.1;q=0.9".toList "text/plain;q=0.1;q=0.9".toList
    ["q=0.1".toList] "q=0.9".toList [] (by decide) (by decide) (by decide) (by decide)
    (by decide)

/-- C19. The quality key is matched case-sensitively: for a valid media range `m`
(exactly `*`, or with exactly one `/`, and without `,` and `;`) and a value `v` without
`,` and `;`, the header `m;Q=v` gives exactly one clause, with `Q = 1.0` and with
`Params` holding the single entry `Q -> trim v`. -/
theorem C19_uppercase_q_is_a_parameter (m v : GoString)
    (hm : ',' ∉ m ∧ ';' ∉ m ∧ (m = ['*'] ∨ m.count '/' = 1)) (hv : ',' ∉ v ∧ ';' ∉ v) :
    ∃ c, ParseAccept (m ++ ";Q=".toList ++ v) = some [c] ∧
      c.Q = Float64.one ∧ c.Params = [(['Q'], trim v)] := by
  obtain ⟨a, _, hq, hp, hr⟩ := ParseAccept_one_param m ['Q'] v hm
    ⟨by decide, by decide, by decide⟩ hv
  have e : m ++ ";Q=".toList ++ v = m ++ ';' :: (['Q'] ++ '=' :: v) := by
    simp [String.toList]
  refine ⟨_, e ▸ hr, ?_⟩
  have hkv := paramKey_paramValue ['Q'] (v.reverse.dropWhile (fun c => c == ' ')).reverse
    (by decide)
  rw [parseParam_eq, if_pos (by simp), hkv.1, hkv.2, if_neg (by decide), hp, trim_rstrip]
  exact ⟨hq, rfl⟩

/-- C19, at the header `text/html;Q=0.5`: the clause keeps `Q = 1.0` and stays before a
clause with `q=0.9`. -/
theorem C19_uppercase_q_is_a_parameter_witness :
    (∃ c, ParseAccept ("text/html".toList ++ ";Q=".toList ++ "0.5".toList) = some [c] ∧
      c.Q = Float64.one ∧ c.Params = [(['Q'], trim "0.5".toList)]) ∧
    ParseAccept "text/plain;q=0.9, text/html;Q=0.5".toList =
      some [⟨"text".toList, "html".toList, Float64.one, [("Q".toList, "0.5".toList)]⟩,
            ⟨"text".toList, "plain".toList, ⟨false, 1022, 3602879701896397⟩, []⟩] :=
  ⟨C19_uppercase_q_is_a_parameter "text/html".toList "0.5".toList
    ⟨by decide, by decide, Or.inr (by decide)⟩ ⟨by decide, by decide⟩, by decide!⟩

end goautoneg
